import Mathlib

set_option linter.unusedSectionVars false
set_option linter.unusedVariables false

/-!
Verification of the digraphx negative-cycle / parametric-network library.

The C++ sources are shallowly embedded as executable Lean functions:

* a directed multigraph (the "graph view") is an association list
  `List (Node × List (Node × Edge))`, mirroring the stable iteration
  order over nodes and over a node's outgoing edges;
* a distance map is a total function `Node → D`;
* the predecessor / successor policies are partial maps
  `Node → Option (Node × Edge)`;
* the unbounded `while` loops of the sources (the outer relaxation loop
  of `howard`, the walks over the policy graph, the parametric outer
  loop) are given explicit fuel; a run also reports whether it finished
  by reaching the source's own exit condition ("complete") rather than
  by running out of fuel.

Each embedded function is translated from a named function of
`src/include/digraphx/*.hpp`, noted in its doc comment.
-/

namespace Digraphx

variable {Node Edge D R : Type}

/-- The graph view: node keys in iteration order, each with its outgoing
edge list `(target, payload)`.  Mirrors the `DiGraph` template parameter
of `neg_cycle.hpp`. -/
abbrev Graph (Node Edge : Type) := List (Node × List (Node × Edge))

/-- Pointwise update of a total map; models `dist[v] = d` / `pred[v] = (u, e)`. -/
def upd [DecidableEq Node] {α : Type} (f : Node → α) (x : Node) (a : α) : Node → α :=
  fun y => if y = x then a else f y

/-- The edge `(u → v, e)` occurs in the graph view. -/
def EdgeIn (g : Graph Node Edge) (u v : Node) (e : Edge) : Prop :=
  ∃ nbrs, (u, nbrs) ∈ g ∧ (v, e) ∈ nbrs

/-- Mutable state of `NegCycleFinder` during `howard`: the caller's
distance map plus the private predecessor policy `_pred`. -/
structure St (Node Edge D : Type) where
  dist : Node → D
  pred : Node → Option (Node × Edge)

section NegCycle

variable [DecidableEq Node] [LinearOrderedAddCommGroup D]

/-- One edge inspection of `NegCycleFinder::_relax`
(`neg_cycle.hpp`, lines 118-132): for the edge `(utx → vtx, edge)` with
`distance = dist[utx] + get_weight(edge)`, if `dist[vtx] > distance`
then update `dist[vtx]` and `_pred[vtx]` and record the change. -/
def relaxEdge (w : Edge → D) (sc : St Node Edge D × Bool) (utx : Node)
    (ve : Node × Edge) : St Node Edge D × Bool :=
  let distance := sc.1.dist utx + w ve.2
  if sc.1.dist ve.1 > distance then
    (⟨upd sc.1.dist ve.1 distance, upd sc.1.pred ve.1 (some (utx, ve.2))⟩, true)
  else sc

/-- The inner loop of `_relax` over the outgoing edges of one node. -/
def relaxNode (w : Edge → D) (sc : St Node Edge D × Bool) (utx : Node)
    (nbrs : List (Node × Edge)) : St Node Edge D × Bool :=
  nbrs.foldl (fun sc ve => relaxEdge w sc utx ve) sc

/-- `NegCycleFinder::_relax`: one full relaxation pass over every edge of
the graph view, in iteration order; returns the updated state and the
`changed` flag. -/
def relaxPass (g : Graph Node Edge) (w : Edge → D) (s : St Node Edge D) :
    St Node Edge D × Bool :=
  g.foldl (fun sc p => relaxNode w sc p.1 p.2) (s, false)

/-- The `while` loop body of `NegCycleFinder::_find_cycle`
(`neg_cycle.hpp`, lines 219-240), fueled: starting below the seed `vtx`,
repeatedly step `utx = _pred[utx].first`; on meeting a visited node yield
it when its mark equals the current seed; otherwise mark and continue. -/
def findCycleWalk (pred : Node → Option (Node × Edge)) (vtx : Node) :
    Nat → (Node → Option Node) → Node → ((Node → Option Node) × Option Node)
  | 0, visited, _ => (visited, none)
  | fuel + 1, visited, utx =>
    match pred utx with
    | none => (visited, none)
    | some (p, _) =>
      match visited p with
      | some mark => (visited, if mark = vtx then some p else none)
      | none => findCycleWalk pred vtx fuel (upd visited p (some vtx)) p

/-- `NegCycleFinder::_find_cycle`: scan the graph's nodes in iteration
order, skipping nodes already visited, and collect every yielded
cycle-entry node.  The visited map is threaded across seeds exactly as in
the source. -/
def findCycles (g : Graph Node Edge) (pred : Node → Option (Node × Edge))
    (wf : Nat) : List Node :=
  (g.foldl
    (fun (acc : (Node → Option Node) × List Node) p =>
      if (acc.1 p.1).isSome then acc
      else
        let r := findCycleWalk pred p.1 wf (upd acc.1 p.1 (some p.1)) p.1
        (r.1, acc.2 ++ r.2.toList))
    ((fun _ => none), [])).2

/-- The loop of `NegCycleFinder::_cycle_list` (`neg_cycle.hpp`, lines
186-198), fueled: follow `_pred` from below `handle`, collecting edge
payloads, until returning to `handle`. -/
def cycleListAux (pred : Node → Option (Node × Edge)) (handle : Node) :
    Nat → Node → Option (List Edge)
  | 0, _ => none
  | fuel + 1, vtx =>
    match pred vtx with
    | none => none
    | some (utx, edge) =>
      if utx = handle then some [edge]
      else (cycleListAux pred handle fuel utx).map (edge :: ·)

/-- `NegCycleFinder::_cycle_list handle`: the edge payloads of the policy
cycle through `handle` (`none` when the walk does not return within fuel). -/
def cycleList (pred : Node → Option (Node × Edge)) (wf : Nat) (handle : Node) :
    Option (List Edge) :=
  cycleListAux pred handle wf handle

/-- The loop of `NegCycleFinder::_is_negative` (`neg_cycle.hpp`, lines
156-171), fueled: walk the cycle from `handle` and return `true` at the
first edge with `dist[vtx] > dist[utx] + get_weight(edge)`, `false` if
the walk returns to `handle` without finding one. -/
def isNegativeAux (pred : Node → Option (Node × Edge)) (dist : Node → D)
    (w : Edge → D) (handle : Node) : Nat → Node → Option Bool
  | 0, _ => none
  | fuel + 1, vtx =>
    match pred vtx with
    | none => none
    | some (utx, edge) =>
      if dist vtx > dist utx + w edge then some true
      else if utx = handle then some false
      else isNegativeAux pred dist w handle fuel utx

/-- `NegCycleFinder::_is_negative handle`. -/
def isNegative (pred : Node → Option (Node × Edge)) (dist : Node → D)
    (w : Edge → D) (wf : Nat) (handle : Node) : Option Bool :=
  isNegativeAux pred dist w handle wf handle

/-- The cycles reported by one cycle-search pass of `howard`: for every
cycle-entry node found in the policy graph, its reconstructed cycle. -/
def collect (g : Graph Node Edge) (pred : Node → Option (Node × Edge))
    (wf : Nat) : List (List Edge) :=
  (findCycles g pred wf).filterMap (fun h => cycleList pred wf h)

/-- The `while` loop of `NegCycleFinder::howard` (`neg_cycle.hpp`, lines
278-290), fueled by the number of relaxation passes: relax; if nothing
changed stop (complete); otherwise search the policy graph for cycles,
and stop after any pass that yielded at least one cycle.  Returns the
yielded cycles, the final state, and whether the loop reached one of the
source's own exit conditions. -/
def howardLoop (g : Graph Node Edge) (w : Edge → D) (wf : Nat) :
    Nat → St Node Edge D → List (List Edge) × St Node Edge D × Bool
  | 0, s => ([], s, false)
  | pf + 1, s =>
    let rp := relaxPass g w s
    if rp.2 then
      let cs := collect g rp.1.pred wf
      if cs.isEmpty then howardLoop g w wf pf rp.1
      else (cs, rp.1, true)
    else ([], rp.1, true)

/-- `NegCycleFinder::howard dist get_weight`: clear the predecessor
policy, then run the relaxation / cycle-search loop. -/
def howard (g : Graph Node Edge) (w : Edge → D) (wf pf : Nat)
    (dist : Node → D) : List (List Edge) × St Node Edge D × Bool :=
  howardLoop g w wf pf ⟨dist, fun _ => none⟩

end NegCycle

section NegCycleQ

variable [DecidableEq Node] [LinearOrderedAddCommGroup D]

/-- Mutable state of `NegCycleFinderQ` (`neg_cycle_q.hpp`): the distance
map plus both private policies `_pred` and `_succ`. -/
structure StQ (Node Edge D : Type) where
  dist : Node → D
  pred : Node → Option (Node × Edge)
  succ : Node → Option (Node × Edge)

/-- One edge inspection of `NegCycleFinderQ::_relax_pred`
(`neg_cycle_q.hpp`, lines 171-185): update exactly when
`dist[vtx] > distance && update_ok(dist[vtx], distance)`. -/
def relaxPredQEdge (ok : D → D → Bool) (w : Edge → D) (sc : StQ Node Edge D × Bool)
    (utx : Node) (ve : Node × Edge) : StQ Node Edge D × Bool :=
  let distance := sc.1.dist utx + w ve.2
  if sc.1.dist ve.1 > distance ∧ ok (sc.1.dist ve.1) distance = true then
    (⟨upd sc.1.dist ve.1 distance, upd sc.1.pred ve.1 (some (utx, ve.2)), sc.1.succ⟩, true)
  else sc

def relaxPredQNode (ok : D → D → Bool) (w : Edge → D) (sc : StQ Node Edge D × Bool)
    (utx : Node) (nbrs : List (Node × Edge)) : StQ Node Edge D × Bool :=
  nbrs.foldl (fun sc ve => relaxPredQEdge ok w sc utx ve) sc

/-- `NegCycleFinderQ::_relax_pred`: one constrained predecessor pass. -/
def relaxPredQPass (g : Graph Node Edge) (ok : D → D → Bool) (w : Edge → D)
    (s : StQ Node Edge D) : StQ Node Edge D × Bool :=
  g.foldl (fun sc p => relaxPredQNode ok w sc p.1 p.2) (s, false)

/-- One edge inspection of `NegCycleFinderQ::_relax_succ`
(`neg_cycle_q.hpp`, lines 198-212): `distance = dist[vtx] - get_weight(edge)`;
update `dist[utx]` and `_succ[utx]` exactly when
`dist[utx] < distance && update_ok(dist[utx], distance)`. -/
def relaxSuccQEdge (ok : D → D → Bool) (w : Edge → D) (sc : StQ Node Edge D × Bool)
    (utx : Node) (ve : Node × Edge) : StQ Node Edge D × Bool :=
  let distance := sc.1.dist ve.1 - w ve.2
  if sc.1.dist utx < distance ∧ ok (sc.1.dist utx) distance = true then
    (⟨upd sc.1.dist utx distance, sc.1.pred, upd sc.1.succ utx (some (ve.1, ve.2))⟩, true)
  else sc

def relaxSuccQNode (ok : D → D → Bool) (w : Edge → D) (sc : StQ Node Edge D × Bool)
    (utx : Node) (nbrs : List (Node × Edge)) : StQ Node Edge D × Bool :=
  nbrs.foldl (fun sc ve => relaxSuccQEdge ok w sc utx ve) sc

/-- `NegCycleFinderQ::_relax_succ`: one constrained successor pass. -/
def relaxSuccQPass (g : Graph Node Edge) (ok : D → D → Bool) (w : Edge → D)
    (s : StQ Node Edge D) : StQ Node Edge D × Bool :=
  g.foldl (fun sc p => relaxSuccQNode ok w sc p.1 p.2) (s, false)

/-- The loop of `NegCycleFinderQ::howard_pred` (`neg_cycle_q.hpp`, lines
280-293).  `NegCycleFinderQ::_find_cycle` and `_cycle_list` are textually
the same walks as in `neg_cycle.hpp` (applied to the chosen policy map),
so they are shared with the unconstrained embedding. -/
def howardPredQLoop (g : Graph Node Edge) (w : Edge → D) (ok : D → D → Bool)
    (wf : Nat) : Nat → StQ Node Edge D → List (List Edge) × StQ Node Edge D × Bool
  | 0, s => ([], s, false)
  | pf + 1, s =>
    let rp := relaxPredQPass g ok w s
    if rp.2 then
      let cs := collect g rp.1.pred wf
      if cs.isEmpty then howardPredQLoop g w ok wf pf rp.1
      else (cs, rp.1, true)
    else ([], rp.1, true)

/-- `NegCycleFinderQ::howard_pred`: clears `_pred` (and only `_pred`),
then runs the constrained predecessor loop. -/
def howardPredQ (g : Graph Node Edge) (w : Edge → D) (ok : D → D → Bool)
    (wf pf : Nat) (dist : Node → D) (succ0 : Node → Option (Node × Edge)) :
    List (List Edge) × StQ Node Edge D × Bool :=
  howardPredQLoop g w ok wf pf ⟨dist, fun _ => none, succ0⟩

/-- The loop of `NegCycleFinderQ::howard_succ` (`neg_cycle_q.hpp`, lines
306-320); cycle search and reconstruction run on the successor policy. -/
def howardSuccQLoop (g : Graph Node Edge) (w : Edge → D) (ok : D → D → Bool)
    (wf : Nat) : Nat → StQ Node Edge D → List (List Edge) × StQ Node Edge D × Bool
  | 0, s => ([], s, false)
  | pf + 1, s =>
    let rp := relaxSuccQPass g ok w s
    if rp.2 then
      let cs := collect g rp.1.succ wf
      if cs.isEmpty then howardSuccQLoop g w ok wf pf rp.1
      else (cs, rp.1, true)
    else ([], rp.1, true)

/-- `NegCycleFinderQ::howard_succ`: clears `_succ` (and only `_succ`),
then runs the constrained successor loop. -/
def howardSuccQ (g : Graph Node Edge) (w : Edge → D) (ok : D → D → Bool)
    (wf pf : Nat) (dist : Node → D) (pred0 : Node → Option (Node × Edge)) :
    List (List Edge) × StQ Node Edge D × Bool :=
  howardSuccQLoop g w ok wf pf ⟨dist, pred0, fun _ => none⟩

/-- `n` relaxation passes of `NegCycleFinder::howard` (policy cleared at
the start, as at the start of every `howard` invocation). -/
def iterRelax (g : Graph Node Edge) (w : Edge → D) : Nat → St Node Edge D → St Node Edge D
  | 0, s => s
  | n + 1, s => iterRelax g w n (relaxPass g w s).1

/-- `n` constrained predecessor passes of `NegCycleFinderQ::howard_pred`. -/
def iterRelaxPredQ (g : Graph Node Edge) (ok : D → D → Bool) (w : Edge → D) :
    Nat → StQ Node Edge D → StQ Node Edge D
  | 0, s => s
  | n + 1, s => iterRelaxPredQ g ok w n (relaxPredQPass g ok w s).1

/-- `n` constrained successor passes of `NegCycleFinderQ::howard_succ`. -/
def iterRelaxSuccQ (g : Graph Node Edge) (ok : D → D → Bool) (w : Edge → D) :
    Nat → StQ Node Edge D → StQ Node Edge D
  | 0, s => s
  | n + 1, s => iterRelaxSuccQ g ok w n (relaxSuccQPass g ok w s).1

/-- Successor-policy entries correspond to graph edges: `succ[u] = (v, e)`
only for an edge `(u → v, e)` of the graph view. -/
def InvEdgesSucc (g : Graph Node Edge) (succ : Node → Option (Node × Edge)) : Prop :=
  ∀ u v e, succ u = some (v, e) → EdgeIn g u v e

end NegCycleQ

section ChainsDefs

variable [DecidableEq Node] [LinearOrderedAddCommGroup D]

/-- No edge of the graph view is relaxable under `φ`: the exit condition
of `howard`'s relaxation loop, stated over the graph. -/
def Feasible (g : Graph Node Edge) (w : Edge → D) (φ : Node → D) : Prop :=
  ∀ u v e, EdgeIn g u v e → ¬(φ v > φ u + w e)

/-- A directed path in the graph view from `a` to `b` whose edge payloads
are `l`, in order. -/
def Chain (g : Graph Node Edge) : Node → List Edge → Node → Prop
  | a, [], b => a = b
  | a, e :: l, b => ∃ v, EdgeIn g a v e ∧ Chain g v l b

/-- A directed cycle of the graph view, given by its edge payload list. -/
def GraphCycle (g : Graph Node Edge) (c : List Edge) : Prop :=
  c ≠ [] ∧ ∃ a, Chain g a c a

end ChainsDefs

section ParametricDefs

variable [DecidableEq Node] [LinearOrderedAddCommGroup D] [LinearOrder R]

/-- The body of the inner `for` loop of `max_parametric`
(`parametric.hpp`, lines 334-371): `ri = zero_cancel(ci); if (r_min > ri)
{ r_min = ri; c_min = ci; }`. -/
def paramStep (zc : List Edge → R) (p : R × List Edge) (ci : List Edge) :
    R × List Edge :=
  if p.1 > zc ci then (zc ci, ci) else p

/-- The outer `while` loop of `max_parametric` / `MaxParametricSolver::run`,
fueled: each iteration consumes the whole cycle generator of
`NegCycleFinder::howard` under the weights `distance(r_opt, ·)`, folds the
cycles through `paramStep`, and exits when `r_min >= r_opt`, returning
`c_opt`; otherwise sets `r_opt := r_min`, `c_opt := c_min` and repeats.
The final component records completion of this loop and of every inner
`howard` run. -/
def maxParamGo (g : Graph Node Edge) (distance : R → Edge → D)
    (zc : List Edge → R) (wf pf : Nat) :
    Nat → R → List Edge → (Node → D) → R × List Edge × (Node → D) × Bool
  | 0, r, cOpt, dist => (r, cOpt, dist, false)
  | n + 1, r, cOpt, dist =>
    let h := howard g (fun e => distance r e) wf pf dist
    let p := h.1.foldl (paramStep zc) (r, cOpt)
    if r ≤ p.1 then (r, cOpt, h.2.1.dist, h.2.2)
    else
      let res := maxParamGo g distance zc wf pf n p.1 p.2 h.2.1.dist
      (res.1, res.2.1, res.2.2.1, res.2.2.2 && h.2.2)

/-- `max_parametric(gra, r_opt, distance, zero_cancel, dist, domain)`:
`c_min` and `c_opt` start empty. -/
def maxParametric (g : Graph Node Edge) (distance : R → Edge → D)
    (zc : List Edge → R) (wf pf of : Nat) (r0 : R) (dist0 : Node → D) :
    R × List Edge × (Node → D) × Bool :=
  maxParamGo g distance zc wf pf of r0 [] dist0

end ParametricDefs

section RatioDefs

variable [DecidableEq Node] [LinearOrderedField R]

/-- `calc_ratio` of `min_cycle_ratio` (`min_cycle_ratio.hpp`, lines
188-196): total cost over total time of a cycle. -/
def calcRatio (get_cost get_time : Edge → R) (c : List Edge) : R :=
  (c.map get_cost).sum / (c.map get_time).sum

/-- `calc_weight` of `min_cycle_ratio` (`min_cycle_ratio.hpp`, lines
198-200): `cost(e) - r * time(e)`. -/
def calcWeight (get_cost get_time : Edge → R) (r : R) (e : Edge) : R :=
  get_cost e - r * get_time e

/-- `min_cycle_ratio(gra, r0, get_cost, get_time, dist, dummy)`
(`min_cycle_ratio.hpp`, lines 176-203): delegates to `max_parametric`
with the ratio API. -/
def minCycleRatio (g : Graph Node Edge) (get_cost get_time : Edge → R)
    (wf pf of : Nat) (r0 : R) (dist0 : Node → R) :
    R × List Edge × (Node → R) × Bool :=
  maxParametric g (calcWeight get_cost get_time) (calcRatio get_cost get_time)
    wf pf of r0 dist0

end RatioDefs

section WitnessDefs

/-- One node with a single negative self-loop (scenario S3). -/
def wgLoop : Graph Nat Int := [(0, [(0, -1)])]

/-- A negative self-loop at node `0` together with a much more negative
two-cycle `1 ↔ 2` feeding node `0`; the two-cycle wins the relaxation
race, so `howard` never yields the length-1 cycle at node `0`. -/
def wgSteal : Graph Nat Int :=
  [(0, [(0, -1)]), (1, [(2, -10)]), (2, [(1, -10), (0, -1000)])]

/-- A one-node graph with a self-loop of arbitrary weight `w0`. -/
def wgSelf (w0 : Int) : Graph Nat Int := [(0, [(0, w0)])]

/-- A single edge `0 → 1`; the graph has no cycles. -/
def wgAcyc : Graph Nat Int := [(0, [(1, 5)])]

/-- Two nodes with a 2-cycle; each edge carries `(cost, time) = (2, 1)`. -/
def wgRatio : Graph Nat (ℚ × ℚ) := [(0, [(1, ((2 : ℚ), (1 : ℚ)))]), (1, [(0, ((2 : ℚ), (1 : ℚ)))])]

/-- One node with a self-loop carrying `(cost, time) = (2, 1)`. -/
def wgRatio1 : Graph Nat (ℚ × ℚ) := [(0, [(0, ((2 : ℚ), (1 : ℚ)))])]

/-- A concrete predecessor policy forming the 2-cycle `0 ← 1 ← 0` with
payloads `-1` and `0`. -/
def predW : Nat → Option (Nat × Int) :=
  fun n => if n = 0 then some (1, -1) else if n = 1 then some (0, 0) else none

/-- A concrete distance map consistent with `predW` (relax-consistent). -/
def distW : Nat → Int := fun n => if n = 1 then 1 else 0

end WitnessDefs

section Walks

variable [DecidableEq Node] [LinearOrderedAddCommGroup D]

/-- Total weight of a cycle's edge payloads. -/
def wsum (w : Edge → D) (l : List Edge) : D := (l.map w).sum

/-- `n` steps along the (functional) policy graph. -/
def predIter (pred : Node → Option (Node × Edge)) : Nat → Node → Option Node
  | 0, v => some v
  | n + 1, v =>
    match pred v with
    | none => none
    | some (u, _) => predIter pred n u

/-- Total weight of the first `n` policy edges along the walk. -/
def sumIter (pred : Node → Option (Node × Edge)) (w : Edge → D) :
    Nat → Node → Option D
  | 0, _ => some 0
  | n + 1, v =>
    match pred v with
    | none => none
    | some (u, e) => (sumIter pred w n u).map (w e + ·)

/-- Relaxation consistency: every policy entry `pred[v] = (u, e)` satisfies
`dist[u] + w(e) ≤ dist[v]`.  This holds whenever `dist[v]` was last written
as `dist[u] + w(e)` and distances have only decreased since. -/
def Inv1 (dist : Node → D) (pred : Node → Option (Node × Edge)) (w : Edge → D) : Prop :=
  ∀ v u e, pred v = some (u, e) → dist u + w e ≤ dist v

/-- Every cycle of the policy graph has strictly negative total weight. -/
def InvCyc (pred : Node → Option (Node × Edge)) (w : Edge → D) : Prop :=
  ∀ v n s, predIter pred (n + 1) v = some v →
    sumIter pred w (n + 1) v = some s → s < 0

/-- Every policy entry corresponds to an edge of the graph view. -/
def InvEdges (g : Graph Node Edge) (pred : Node → Option (Node × Edge)) : Prop :=
  ∀ v u e, pred v = some (u, e) → EdgeIn g u v e

/-- The combined invariant maintained by `howard`'s relaxation loop. -/
def InvAll (g : Graph Node Edge) (w : Edge → D) (s : St Node Edge D) : Prop :=
  Inv1 s.dist s.pred w ∧ InvCyc s.pred w ∧ InvEdges g s.pred

theorem upd_same [DecidableEq Node] {α : Type} (f : Node → α) (x : Node) (a : α) :
    upd f x a x = a := by
  simp [upd]

theorem upd_other [DecidableEq Node] {α : Type} (f : Node → α) (x : Node) (a : α)
    {y : Node} (h : y ≠ x) : upd f x a y = f y := by
  simp [upd, h]

theorem predIter_add (pred : Node → Option (Node × Edge)) (m n : Nat) :
    ∀ v, predIter pred (m + n) v = (predIter pred m v).bind (predIter pred n) := by
  induction m with
  | zero => intro v; simp [predIter]
  | succ m ih =>
    intro v
    have : m + 1 + n = (m + n) + 1 := by omega
    rw [this]
    show (match pred v with
      | none => none
      | some (u, _) => predIter pred (m + n) u) = _
    cases hv : pred v with
    | none => simp [predIter, hv]
    | some ue => simp [predIter, hv, ih ue.1]

theorem sumIter_add (pred : Node → Option (Node × Edge)) (w : Edge → D) (m n : Nat) :
    ∀ v, sumIter pred w (m + n) v =
      (sumIter pred w m v).bind (fun s1 =>
        (predIter pred m v).bind (fun x => (sumIter pred w n x).map (s1 + ·))) := by
  induction m with
  | zero =>
    intro v
    simp only [Nat.zero_add, sumIter, predIter, Option.some_bind]
    cases h : sumIter pred w n v <;> simp [h]
  | succ m ih =>
    intro v
    have : m + 1 + n = (m + n) + 1 := by omega
    rw [this]
    show (match pred v with
      | none => none
      | some (u, e) => (sumIter pred w (m + n) u).map (w e + ·)) = _
    cases hv : pred v with
    | none => simp [sumIter, predIter, hv]
    | some ue =>
      simp only [sumIter, predIter, hv, ih ue.1]
      cases h1 : sumIter pred w m ue.1 with
      | none => simp
      | some s1 =>
        cases h2 : predIter pred m ue.1 with
        | none => simp
        | some x =>
          cases h3 : sumIter pred w n x with
          | none => simp
          | some s2 => simp [add_assoc]

/-- A walk that never visits the rewritten slot `v` is unchanged by the
rewrite. -/
theorem iter_avoid {pred pred' : Node → Option (Node × Edge)} {w : Edge → D}
    {v : Node} (hag : ∀ x, x ≠ v → pred' x = pred x) :
    ∀ n v0, (∀ i, i < n → predIter pred' i v0 ≠ some v) →
      predIter pred' n v0 = predIter pred n v0 ∧
      sumIter pred' w n v0 = sumIter pred w n v0 := by
  intro n
  induction n with
  | zero => intro v0 _; exact ⟨rfl, rfl⟩
  | succ n ih =>
    intro v0 hv0
    have h0 : v0 ≠ v := by
      intro h
      exact hv0 0 (Nat.succ_pos n) (by simp [predIter, h])
    have hp : pred' v0 = pred v0 := hag v0 h0
    cases hv : pred v0 with
    | none =>
      constructor <;> simp [predIter, sumIter, hp, hv]
    | some ue =>
      have hstep : ∀ i, i < n → predIter pred' i ue.1 ≠ some v := by
        intro i hi hcon
        refine hv0 (i + 1) (by omega) ?_
        have : predIter pred' (i + 1) v0 =
            (match pred' v0 with
              | none => none
              | some (u, _) => predIter pred' i u) := rfl
        rw [this, hp, hv]
        exact hcon
      obtain ⟨ih1, ih2⟩ := ih ue.1 hstep
      constructor <;> simp [predIter, sumIter, hp, hv, ih1, ih2]

/-- Rotation: any node reached along a closed walk is itself on a closed
walk of the same length and same total weight. -/
theorem iter_rotate {pred : Node → Option (Node × Edge)} {w : Edge → D}
    {v0 x : Node} {n i : Nat} {s : D} (hin : i ≤ n)
    (hcyc : predIter pred n v0 = some v0) (hx : predIter pred i v0 = some x)
    (hsum : sumIter pred w n v0 = some s) :
    predIter pred n x = some x ∧ sumIter pred w n x = some s := by
  set j := n - i with hj
  have hij : i + j = n := by omega
  have hsplit : predIter pred (i + j) v0 = (predIter pred i v0).bind (predIter pred j) :=
    predIter_add pred i j v0
  rw [hij, hcyc, hx] at hsplit
  have hjx : predIter pred j x = some v0 := hsplit.symm
  have hiter : predIter pred n x = some x := by
    have h2 : predIter pred (j + i) x = (predIter pred j x).bind (predIter pred i) :=
      predIter_add pred j i x
    rw [hjx] at h2
    simp only [Option.some_bind] at h2
    rw [show j + i = n by omega] at h2
    rw [h2, hx]
  have hsplit2 := sumIter_add pred w i j v0
  rw [hij, hsum, hx] at hsplit2
  obtain ⟨s1, hs1, rest⟩ : ∃ s1, sumIter pred w i v0 = some s1 ∧
      (sumIter pred w j x).map (s1 + ·) = some s := by
    cases h1 : sumIter pred w i v0 with
    | none => rw [h1] at hsplit2; simp at hsplit2
    | some s1 =>
      rw [h1] at hsplit2
      exact ⟨s1, rfl, hsplit2.symm⟩
  obtain ⟨s2, hs2, hadd⟩ : ∃ s2, sumIter pred w j x = some s2 ∧ s1 + s2 = s := by
    cases h2 : sumIter pred w j x with
    | none => rw [h2] at rest; simp at rest
    | some s2 =>
      rw [h2] at rest
      simp only [Option.map_some'] at rest
      exact ⟨s2, rfl, by injection rest⟩
  have hsum2 : sumIter pred w n x = some (s2 + s1) := by
    have h3 := sumIter_add pred w j i x
    rw [show j + i = n by omega] at h3
    rw [h3, hs2, hjx]
    simp [hs1]
  refine ⟨hiter, ?_⟩
  rw [hsum2, ← hadd, add_comm]

/-- A self-looping policy slot walks in place. -/
theorem iter_selfloop {pred : Node → Option (Node × Edge)} {w : Edge → D}
    {v : Node} {e : Edge} (h : pred v = some (v, e)) :
    ∀ n, predIter pred n v = some v ∧ sumIter pred w n v = some (n • w e) := by
  intro n
  induction n with
  | zero => exact ⟨rfl, by simp [sumIter]⟩
  | succ n ih =>
    constructor
    · simp only [predIter, h]
      exact ih.1
    · simp only [sumIter, h, ih.2, Option.map_some']
      simp [succ_nsmul, add_comm]

theorem nsmul_neg_of_neg {x : D} (hx : x < 0) : ∀ n : Nat, (n + 1) • x < 0 := by
  intro n
  induction n with
  | zero => simpa using hx
  | succ n ih =>
    have : (n + 2) • x = (n + 1) • x + x := succ_nsmul x (n + 1)
    rw [this]
    have := add_lt_add ih hx
    simpa using this

/-- Telescoping along a policy walk under `Inv1`: the walk's total weight
is bounded by the drop in distance. -/
theorem telescope {dist : Node → D} {pred : Node → Option (Node × Edge)}
    {w : Edge → D} (h1 : Inv1 dist pred w) :
    ∀ n v x s, predIter pred n v = some x → sumIter pred w n v = some s →
      dist x + s ≤ dist v := by
  intro n
  induction n with
  | zero =>
    intro v x s hx hs
    simp only [predIter] at hx
    simp only [sumIter] at hs
    injection hx with hx
    injection hs with hs
    subst hx; subst hs; simp
  | succ n ih =>
    intro v x s hx hs
    cases hv : pred v with
    | none =>
      simp only [predIter, hv] at hx
      exact Option.noConfusion hx
    | some ue =>
      obtain ⟨u, e⟩ := ue
      simp only [predIter, hv] at hx
      simp only [sumIter, hv] at hs
      obtain ⟨t, ht, rfl⟩ : ∃ t, sumIter pred w n u = some t ∧ s = w e + t := by
        cases h : sumIter pred w n u with
        | none => rw [h] at hs; simp at hs
        | some t =>
          rw [h] at hs
          simp only [Option.map_some'] at hs
          exact ⟨t, rfl, by injection hs with h'; exact h'.symm⟩
      have hle := ih u x t hx ht
      have hedge := h1 v u e hv
      calc dist x + (w e + t) = (dist x + t) + w e := by abel
        _ ≤ dist u + w e := add_le_add_right hle _
        _ ≤ dist v := hedge

end Walks

section Preserve

variable [DecidableEq Node] [LinearOrderedAddCommGroup D]

theorem foldl_preserve {α β : Type} (P : α → Prop) (f : α → β → α) :
    ∀ (l : List β) (a : α), P a → (∀ b, b ∈ l → ∀ x, P x → P (f x b)) →
      P (l.foldl f a) := by
  intro l
  induction l with
  | nil => intro a ha _; exact ha
  | cons b bs ih =>
    intro a ha h
    exact ih (f a b) (h b (List.mem_cons_self b bs) a ha)
      (fun c hc x hx => h c (List.mem_cons_of_mem b hc) x hx)

/-- A single relaxation write `dist[v] := dist[u] + w(e)`, `pred[v] := (u, e)`
performed under the source's guard `dist[v] > dist[u] + w(e)` keeps every
policy entry relax-consistent. -/
theorem inv1_update {dist : Node → D} {pred : Node → Option (Node × Edge)}
    {w : Edge → D} {u v : Node} {e : Edge}
    (h1 : Inv1 dist pred w) (hlt : dist u + w e < dist v) :
    Inv1 (upd dist v (dist u + w e)) (upd pred v (some (u, e))) w := by
  have hwe : u = v → w e < 0 := by
    intro h
    rw [h] at hlt
    have h0 : dist v + w e < dist v + 0 := by simpa using hlt
    exact lt_of_add_lt_add_left h0
  intro x y ε hx
  by_cases hxv : x = v
  · rw [hxv, upd_same] at hx
    injection hx with hx
    injection hx with hy hε
    rw [hxv, upd_same, ← hy, ← hε]
    by_cases huv : u = v
    · rw [huv, upd_same]
      have : (dist v + w e) + w e ≤ (dist v + w e) + 0 :=
        add_le_add_left (hwe huv).le _
      rw [← huv] at this ⊢
      simpa using this
    · rw [upd_other dist v _ huv]
  · rw [upd_other pred v _ hxv] at hx
    have hold := h1 x y ε hx
    rw [upd_other dist v _ hxv]
    by_cases hyv : y = v
    · rw [hyv, upd_same]
      calc (dist u + w e) + w ε ≤ dist v + w ε := add_le_add_right hlt.le _
        _ ≤ dist x := by rw [← hyv]; exact hold
    · rw [upd_other dist v _ hyv]
      exact hold

/-- The same relaxation write keeps every policy cycle strictly negative:
either a cycle avoids the rewritten slot (and was already negative), or it
passes through it, in which case rotating it to start at the rewritten slot
exposes the strict decrease `dist[v] > dist[u] + w(e)` of this very write. -/
theorem invcyc_update {dist : Node → D} {pred : Node → Option (Node × Edge)}
    {w : Edge → D} {u v : Node} {e : Edge}
    (h1 : Inv1 dist pred w) (h2 : InvCyc pred w) (hlt : dist u + w e < dist v) :
    InvCyc (upd pred v (some (u, e))) w := by
  intro v0 n s hiter hsum
  set pred' := upd pred v (some (u, e)) with hpred'
  by_cases hB : ∃ i, i ≤ n ∧ predIter pred' i v0 = some v
  · obtain ⟨i, hin, hx⟩ := hB
    obtain ⟨hiter2, hsum2⟩ :=
      iter_rotate (w := w) (by omega : i ≤ n + 1) hiter hx hsum
    have hpv : pred' v = some (u, e) := upd_same pred v _
    by_cases huv : u = v
    · subst huv
      obtain ⟨_, hs⟩ := iter_selfloop (w := w) hpv (n + 1)
      rw [hsum2] at hs
      injection hs with hs
      have hwe : w e < 0 := by
        have h0 : dist u + w e < dist u + 0 := by simpa using hlt
        exact lt_of_add_lt_add_left h0
      rw [hs]
      exact nsmul_neg_of_neg hwe n
    · have hiter3 : predIter pred' n u = some v := by
        have := hiter2
        simp only [predIter, hpv] at this
        exact this
      obtain ⟨t, ht, hst⟩ : ∃ t, sumIter pred' w n u = some t ∧ s = w e + t := by
        have hq := hsum2
        simp only [sumIter, hpv] at hq
        cases hqq : sumIter pred' w n u with
        | none => rw [hqq] at hq; exact Option.noConfusion hq
        | some t =>
          rw [hqq] at hq
          simp only [Option.map_some'] at hq
          exact ⟨t, rfl, by injection hq with h'; exact h'.symm⟩
      have hn1 : 1 ≤ n := by
        rcases Nat.eq_zero_or_pos n with h0 | h0
        · subst h0
          simp only [predIter] at hiter3
          injection hiter3 with h'
          exact absurd h' huv
        · exact h0
      obtain ⟨x, hxx, hlast⟩ : ∃ x, predIter pred' (n - 1) u = some x ∧
          predIter pred' 1 x = some v := by
        have hadd := predIter_add pred' (n - 1) 1 u
        rw [show n - 1 + 1 = n by omega, hiter3] at hadd
        cases hq : predIter pred' (n - 1) u with
        | none => rw [hq] at hadd; exact Option.noConfusion hadd.symm
        | some x =>
          rw [hq] at hadd
          exact ⟨x, rfl, hadd.symm⟩
      obtain ⟨ε, hpx⟩ : ∃ ε, pred' x = some (v, ε) := by
        cases hq : pred' x with
        | none => simp [predIter, hq] at hlast
        | some ue2 =>
          obtain ⟨y1, ε1⟩ := ue2
          simp only [predIter, hq] at hlast
          injection hlast with h'
          subst h'
          exact ⟨ε1, rfl⟩
      obtain ⟨t1, ht1, t2eq⟩ : ∃ t1, sumIter pred' w (n - 1) u = some t1 ∧
          t = t1 + (w ε + 0) := by
        have hadd := sumIter_add pred' w (n - 1) 1 u
        rw [show n - 1 + 1 = n by omega, ht, hxx] at hadd
        have hs1 : sumIter pred' w 1 x = some (w ε + 0) := by
          simp [sumIter, hpx]
        cases hq : sumIter pred' w (n - 1) u with
        | none => rw [hq] at hadd; exact Option.noConfusion hadd
        | some t1 =>
          rw [hq] at hadd
          simp only [Option.some_bind, hs1, Option.map_some', Option.some.injEq] at hadd
          exact ⟨t1, rfl, hadd⟩
      have hxv : x ≠ v := by
        intro h
        rw [h, hpv] at hpx
        injection hpx with h2
        injection h2 with h3 _
        exact huv h3
      have hpredx : pred x = some (v, ε) := by
        rw [← hpx]
        exact (upd_other pred v _ hxv).symm
      have holdx : dist v + w ε ≤ dist x := h1 x v ε hpredx
      have hinv1' : Inv1 (upd dist v (dist u + w e)) pred' w := inv1_update h1 hlt
      have htele := telescope hinv1' (n - 1) u x t1 hxx ht1
      rw [upd_other dist v _ hxv, upd_other dist v _ huv] at htele
      subst hst; subst t2eq
      have C := add_lt_add_of_le_of_lt (add_le_add htele holdx) hlt
      have E1 : ((dist x + t1) + (dist v + w ε)) + (dist u + w e)
          = (w e + (t1 + (w ε + 0))) + (dist x + dist v + dist u) := by abel
      have E2 : (dist u + dist x) + dist v = 0 + (dist x + dist v + dist u) := by abel
      rw [E1, E2] at C
      exact lt_of_add_lt_add_right C
  · push_neg at hB
    have havoid : ∀ i, i < n + 1 → predIter pred' i v0 ≠ some v :=
      fun i hi => hB i (by omega)
    have hag : ∀ x, x ≠ v → pred' x = pred x := fun x hx => upd_other pred v _ hx
    obtain ⟨e1, e2⟩ := iter_avoid (w := w) hag (n + 1) v0 havoid
    exact h2 v0 n s (e1 ▸ hiter) (e2 ▸ hsum)

/-- Inspecting one edge in `_relax` preserves the combined invariant. -/
theorem relaxEdge_preserves {g : Graph Node Edge} {w : Edge → D}
    {sc : St Node Edge D × Bool} {utx : Node} {ve : Node × Edge}
    (hInv : InvAll g w sc.1) (hedge : EdgeIn g utx ve.1 ve.2) :
    InvAll g w (relaxEdge w sc utx ve).1 := by
  obtain ⟨h1, h2, h3⟩ := hInv
  simp only [relaxEdge]
  split
  case isTrue h =>
    refine ⟨inv1_update h1 h, invcyc_update h1 h2 h, ?_⟩
    intro x y ε hx
    dsimp only at hx
    by_cases hxv : x = ve.1
    · subst hxv
      rw [upd_same] at hx
      injection hx with hx
      injection hx with hy hε
      subst hy; subst hε
      exact hedge
    · rw [upd_other _ _ _ hxv] at hx
      exact h3 x y ε hx
  case isFalse h => exact ⟨h1, h2, h3⟩

theorem relaxNode_preserves {g : Graph Node Edge} {w : Edge → D}
    {sc : St Node Edge D × Bool} {utx : Node} {nbrs : List (Node × Edge)}
    (hInv : InvAll g w sc.1) (hn : ∀ ve ∈ nbrs, EdgeIn g utx ve.1 ve.2) :
    InvAll g w (relaxNode w sc utx nbrs).1 :=
  foldl_preserve (fun sc => InvAll g w sc.1) _ nbrs sc hInv
    (fun ve hve _ hx => relaxEdge_preserves hx (hn ve hve))

/-- One full `_relax` pass preserves the combined invariant. -/
theorem relaxPass_preserves {g : Graph Node Edge} {w : Edge → D}
    {s : St Node Edge D} (hInv : InvAll g w s) :
    InvAll g w (relaxPass g w s).1 :=
  foldl_preserve (fun sc => InvAll g w sc.1) _ g (s, false) hInv
    (fun p hp _ hx => relaxNode_preserves hx (fun ve hve => ⟨p.2, hp, hve⟩))

/-- A successful `_cycle_list` walk from `handle` witnesses a closed policy
walk of the same length and total weight. -/
theorem cycleListAux_iter {pred : Node → Option (Node × Edge)} {w : Edge → D}
    {handle : Node} :
    ∀ fuel v l, cycleListAux pred handle fuel v = some l →
      l ≠ [] ∧ predIter pred l.length v = some handle ∧
      sumIter pred w l.length v = some (wsum w l) := by
  intro fuel
  induction fuel with
  | zero => intro v l h; simp [cycleListAux] at h
  | succ fuel ih =>
    intro v l h
    cases hv : pred v with
    | none => simp [cycleListAux, hv] at h
    | some ue =>
      obtain ⟨u, e⟩ := ue
      simp only [cycleListAux, hv] at h
      by_cases hu : u = handle
      · rw [if_pos hu] at h
        injection h with h
        subst h; subst hu
        refine ⟨by simp, ?_, ?_⟩
        · simp [predIter, hv]
        · simp [sumIter, hv, wsum]
      · rw [if_neg hu] at h
        cases hq : cycleListAux pred handle fuel u with
        | none => rw [hq] at h; exact Option.noConfusion h
        | some l' =>
          rw [hq] at h
          simp only [Option.map_some'] at h
          injection h with h
          subst h
          obtain ⟨hne, hit, hsum⟩ := ih u l' hq
          refine ⟨by simp, ?_, ?_⟩
          · simp only [List.length_cons, predIter, hv]
            exact hit
          · simp only [List.length_cons, sumIter, hv, hsum, Option.map_some', wsum,
              List.map_cons, List.sum_cons]

/-- The state `howard` starts from (fresh policy) satisfies the invariant. -/
theorem InvAll_empty (g : Graph Node Edge) (w : Edge → D) (d0 : Node → D) :
    InvAll g w ⟨d0, fun _ => none⟩ := by
  refine ⟨fun v u e h => Option.noConfusion h, fun v n s hiter _ => ?_,
    fun v u e h => Option.noConfusion h⟩
  simp [predIter] at hiter

/-- Every cycle yielded by the `howard` loop from an invariant state has
strictly negative total weight, and comes from a `_cycle_list` walk over a
policy made of graph edges. -/
theorem howardLoop_yield {g : Graph Node Edge} {w : Edge → D} {wf : Nat} :
    ∀ pf s, InvAll g w s → ∀ c ∈ (howardLoop g w wf pf s).1,
      wsum w c < 0 ∧ ∃ pr, InvEdges g pr ∧ ∃ h, cycleList pr wf h = some c := by
  intro pf
  induction pf with
  | zero => intro s _ c hc; simp [howardLoop] at hc
  | succ pf ih =>
    intro s hInv c hc
    have hInv' : InvAll g w (relaxPass g w s).1 := relaxPass_preserves hInv
    simp only [howardLoop] at hc
    split at hc
    case isTrue hchg =>
      split at hc
      case isTrue hemp => exact ih _ hInv' c hc
      case isFalse hemp =>
        simp only at hc
        obtain ⟨h, hh, hcl⟩ := List.mem_filterMap.mp hc
        obtain ⟨hne, hit, hsum⟩ := cycleListAux_iter (w := w) wf h c hcl
        obtain ⟨n, hn⟩ : ∃ n, c.length = n + 1 := by
          cases c with
          | nil => exact absurd rfl hne
          | cons a l => exact ⟨l.length, rfl⟩
        rw [hn] at hit hsum
        exact ⟨hInv'.2.1 h n (wsum w c) hit hsum,
          (relaxPass g w s).1.pred, hInv'.2.2, h, hcl⟩
    case isFalse hchg => simp at hc

end Preserve

section IsNeg

variable [DecidableEq Node] [LinearOrderedAddCommGroup D]

/-- Whenever `_cycle_list` succeeds, `_is_negative` terminates on the same
walk (it inspects a prefix of the same cycle). -/
theorem isNegativeAux_total {pred : Node → Option (Node × Edge)} (dist : Node → D)
    (w : Edge → D) {handle : Node} :
    ∀ fuel v l, cycleListAux pred handle fuel v = some l →
      ∃ b, isNegativeAux pred dist w handle fuel v = some b := by
  intro fuel
  induction fuel with
  | zero => intro v l h; simp [cycleListAux] at h
  | succ fuel ih =>
    intro v l h
    cases hv : pred v with
    | none => simp [cycleListAux, hv] at h
    | some ue =>
      obtain ⟨u, e⟩ := ue
      simp only [cycleListAux, hv] at h
      simp only [isNegativeAux, hv]
      by_cases hneg : dist v > dist u + w e
      · exact ⟨true, by rw [if_pos hneg]⟩
      · rw [if_neg hneg]
        by_cases hu : u = handle
        · exact ⟨false, by rw [if_pos hu]⟩
        · rw [if_neg hu]
          rw [if_neg hu] at h
          cases hq : cycleListAux pred handle fuel u with
          | none => rw [hq] at h; exact Option.noConfusion h
          | some l' => exact ih u l' hq

/-- If `_is_negative` answers `false`, the cycle's weight bounds the
distance drop from below (no edge of the walk is relaxable). -/
theorem isNegativeAux_false_ge {pred : Node → Option (Node × Edge)} {dist : Node → D}
    {w : Edge → D} {handle : Node} :
    ∀ fuel v l, cycleListAux pred handle fuel v = some l →
      isNegativeAux pred dist w handle fuel v = some false →
      dist v ≤ dist handle + wsum w l := by
  intro fuel
  induction fuel with
  | zero => intro v l h; simp [cycleListAux] at h
  | succ fuel ih =>
    intro v l h hb
    cases hv : pred v with
    | none => simp [cycleListAux, hv] at h
    | some ue =>
      obtain ⟨u, e⟩ := ue
      simp only [cycleListAux, hv] at h
      simp only [isNegativeAux, hv] at hb
      by_cases hneg : dist v > dist u + w e
      · rw [if_pos hneg] at hb
        injection hb with h'
        exact Bool.noConfusion h'
      · rw [if_neg hneg] at hb
        push_neg at hneg
        by_cases hu : u = handle
        · rw [if_pos hu] at h
          injection h with h
          subst h; subst hu
          simpa [wsum] using hneg
        · rw [if_neg hu] at h
          rw [if_neg hu] at hb
          cases hq : cycleListAux pred handle fuel u with
          | none => rw [hq] at h; exact Option.noConfusion h
          | some l' =>
            rw [hq] at h
            simp only [Option.map_some'] at h
            injection h with h
            subst h
            have hrec := ih u l' hq hb
            calc dist v ≤ dist u + w e := hneg
              _ ≤ (dist handle + wsum w l') + w e := add_le_add_right hrec _
              _ = dist handle + wsum w (e :: l') := by
                  simp only [wsum, List.map_cons, List.sum_cons]; abel

/-- If `_is_negative` answers `true` and the state is relax-consistent,
the walk witnesses a strict distance drop. -/
theorem isNegativeAux_true_lt {pred : Node → Option (Node × Edge)} {dist : Node → D}
    {w : Edge → D} {handle : Node} (h1 : Inv1 dist pred w) :
    ∀ fuel v l, cycleListAux pred handle fuel v = some l →
      isNegativeAux pred dist w handle fuel v = some true →
      dist handle + wsum w l < dist v := by
  intro fuel
  induction fuel with
  | zero => intro v l h; simp [cycleListAux] at h
  | succ fuel ih =>
    intro v l h hb
    cases hv : pred v with
    | none => simp [cycleListAux, hv] at h
    | some ue =>
      obtain ⟨u, e⟩ := ue
      simp only [cycleListAux, hv] at h
      simp only [isNegativeAux, hv] at hb
      by_cases hneg : dist v > dist u + w e
      · by_cases hu : u = handle
        · rw [if_pos hu] at h
          injection h with h
          subst h; subst hu
          simpa [wsum] using hneg
        · rw [if_neg hu] at h
          cases hq : cycleListAux pred handle fuel u with
          | none => rw [hq] at h; exact Option.noConfusion h
          | some l' =>
            rw [hq] at h
            simp only [Option.map_some'] at h
            injection h with h
            subst h
            obtain ⟨hne, hit, hsum⟩ := cycleListAux_iter (w := w) fuel u l' hq
            have htl := telescope h1 l'.length u handle (wsum w l') hit hsum
            calc dist handle + wsum w (e :: l')
                = (dist handle + wsum w l') + w e := by
                  simp only [wsum, List.map_cons, List.sum_cons]; abel
              _ ≤ dist u + w e := by
                  refine add_le_add_right ?_ _
                  have := htl
                  calc dist handle + wsum w l'
                      = dist handle + wsum w l' := rfl
                    _ ≤ dist u := htl
              _ < dist v := hneg
      · rw [if_neg hneg] at hb
        by_cases hu : u = handle
        · rw [if_pos hu] at hb
          injection hb with hb
          exact Bool.noConfusion hb
        · rw [if_neg hu] at hb
          rw [if_neg hu] at h
          cases hq : cycleListAux pred handle fuel u with
          | none => rw [hq] at h; exact Option.noConfusion h
          | some l' =>
            rw [hq] at h
            simp only [Option.map_some'] at h
            injection h with h
            subst h
            have hrec := ih u l' hq hb
            have hedge := h1 v u e hv
            calc dist handle + wsum w (e :: l')
                = (dist handle + wsum w l') + w e := by
                  simp only [wsum, List.map_cons, List.sum_cons]; abel
              _ < dist u + w e := add_lt_add_right hrec _
              _ ≤ dist v := hedge

end IsNeg

section ClaimsNeg

variable [DecidableEq Node] [LinearOrderedAddCommGroup D]

/-- C1: for every finite directed multigraph, every initial distance map
over its nodes, and every weight functor `w`, every cycle yielded by the
predecessor algorithm `NegCycleFinder::howard` has a strictly negative
sum of edge weights. -/
theorem howard_pred_sound (g : Graph Node Edge) (w : Edge → D) (wf pf : Nat)
    (d0 : Node → D) (c : List Edge) (hc : c ∈ (howard g w wf pf d0).1) :
    wsum w c < 0 :=
  (howardLoop_yield pf ⟨d0, fun _ => none⟩ (InvAll_empty g w d0) c hc).1

theorem howard_pred_sound_witness :
    [(-1 : Int)] ∈ (howard wgLoop id 3 3 (fun _ => (0 : Int))).1 ∧
      wsum id [(-1 : Int)] < 0 :=
  ⟨by decide, howard_pred_sound wgLoop id 3 3 (fun _ => 0) [(-1)] (by decide)⟩

/-- C4: on a relax-consistent state (the states `howard` produces), for a
handle that lies on a policy cycle, `NegCycleFinder::_is_negative` answers
`true` exactly when the policy cycle's total weight is strictly negative. -/
theorem is_negative_iff (pred : Node → Option (Node × Edge)) (dist : Node → D)
    (w : Edge → D) (fuel : Nat) (handle : Node) (c : List Edge)
    (h1 : Inv1 dist pred w) (hc : cycleList pred fuel handle = some c) :
    isNegative pred dist w fuel handle = some true ↔ wsum w c < 0 := by
  constructor
  · intro ht
    have hlt := isNegativeAux_true_lt h1 fuel handle c hc ht
    have h0 : dist handle + wsum w c < dist handle + 0 := by simpa using hlt
    exact lt_of_add_lt_add_left h0
  · intro hneg
    obtain ⟨b, hb⟩ := isNegativeAux_total dist w fuel handle c hc
    cases b with
    | true => exact hb
    | false =>
      have hge := isNegativeAux_false_ge fuel handle c hc hb
      have h0 : dist handle + 0 ≤ dist handle + wsum w c := by simpa using hge
      exact absurd hneg (not_lt.mpr (le_of_add_le_add_left h0))

theorem is_negative_iff_witness :
    Inv1 distW predW (id : Int → Int) ∧
      cycleList predW 2 0 = some [-1, 0] ∧
      (isNegative predW distW id 2 0 = some true ↔ wsum id [(-1 : Int), 0] < 0) := by
  have hinv : Inv1 distW predW (id : Int → Int) := by
    intro v u e h
    by_cases h0 : v = 0
    · subst h0
      simp only [predW, if_pos rfl] at h
      injection h with h
      injection h with hy hε
      subst hy; subst hε
      decide
    · by_cases h1 : v = 1
      · subst h1
        simp only [predW, if_neg (by decide : (1 : Nat) ≠ 0), if_pos rfl] at h
        injection h with h
        injection h with hy hε
        subst hy; subst hε
        decide
      · simp only [predW, if_neg h0, if_neg h1] at h
        exact Option.noConfusion h
  exact ⟨hinv, by decide, is_negative_iff predW distW id 2 0 [-1, 0] hinv (by decide)⟩

/-- C7 counterexample: in `wgSteal`, node `0` carries a self-edge of
weight `-1 < 0`, yet `howard` yields only the two-edge cycle
`[-10, -10]` — no cycle of length 1 at all — because the predecessor slot
of node `0` is stolen by the heavier incoming edge before cycle search. -/
theorem self_loop_claim_cex :
    (-1 : Int) < 0 ∧
      (howard wgSteal id 5 5 (fun _ => 0)).1 = [[-10, -10]] ∧
      ∀ c ∈ (howard wgSteal id 5 5 (fun _ => 0)).1, c ≠ [(-1 : Int)] ∧ c.length ≠ 1 := by
  decide

/-- C7 (amended): on the one-node graph whose only edge is a self-loop of
weight `w0`, for every initial distance, `howard` yields exactly the one
cycle consisting of that self-edge iff `w0 < 0`. -/
theorem self_loop_iff (w0 d0 : Int) :
    (howard (wgSelf w0) id 2 1 (fun _ => d0)).1 = [[w0]] ↔ w0 < 0 := by
  by_cases hw : w0 < 0
  · have hc : (fun _ => d0 : Nat → Int) 0 > (fun _ => d0 : Nat → Int) 0 + id w0 := by
      simp; omega
    simp only [howard, howardLoop, relaxPass, relaxNode, relaxEdge, wgSelf,
      List.foldl_cons, List.foldl_nil, if_pos hc]
    simp only [collect, findCycles, findCycleWalk, cycleList, cycleListAux, upd,
      List.foldl_cons, List.foldl_nil]
    simp [hw]
  · have hc : ¬ ((fun _ => d0 : Nat → Int) 0 > (fun _ => d0 : Nat → Int) 0 + id w0) := by
      simp; omega
    simp only [howard, howardLoop, relaxPass, relaxNode, relaxEdge, wgSelf,
      List.foldl_cons, List.foldl_nil, if_neg hc]
    simp [hw]

end ClaimsNeg

section Mechanism

variable [DecidableEq Node] [LinearOrderedAddCommGroup D]

theorem relaxEdge_flag_false {w : Edge → D} {sc : St Node Edge D × Bool}
    {utx : Node} {ve : Node × Edge} (h : (relaxEdge w sc utx ve).2 = false) :
    relaxEdge w sc utx ve = sc := by
  revert h
  simp only [relaxEdge]
  split
  · intro h; exact absurd h (by simp)
  · intro _; rfl

/-- A pass that reports no change leaves the state untouched (it is
literally the input state). -/
theorem relaxPass_false_eq {g : Graph Node Edge} {w : Edge → D} {s : St Node Edge D}
    (h : (relaxPass g w s).2 = false) : relaxPass g w s = (s, false) := by
  have key := foldl_preserve
    (fun y : St Node Edge D × Bool => y.2 = false → y = (s, false))
    (fun sc p => relaxNode w sc p.1 p.2) g (s, false) (fun _ => rfl) ?_
  · exact key h
  · intro p hp x hx
    have hnode := foldl_preserve
      (fun y : St Node Edge D × Bool => y.2 = false → y = x)
      (fun sc ve => relaxEdge w sc p.1 ve) p.2 x (fun _ => rfl)
      (fun ve hve y hy hf => by
        show relaxEdge w y p.1 ve = x
        have he := relaxEdge_flag_false (show (relaxEdge w y p.1 ve).2 = false from hf)
        rw [he]
        exact hy (by rw [← he]; exact hf))
    intro hfin
    show relaxNode w x p.1 p.2 = (s, false)
    have h1 : relaxNode w x p.1 p.2 = x := hnode hfin
    rw [h1]
    exact hx (by rw [← h1]; exact hfin)

theorem relaxEdge_decreases {w : Edge → D} {s : St Node Edge D}
    {z : St Node Edge D × Bool} {utx : Node} {ve : Node × Edge}
    (hz : (∀ x, z.1.dist x ≤ s.dist x) ∧ (z.2 = true → ∃ x, z.1.dist x < s.dist x)) :
    (∀ x, (relaxEdge w z utx ve).1.dist x ≤ s.dist x) ∧
      ((relaxEdge w z utx ve).2 = true → ∃ x, (relaxEdge w z utx ve).1.dist x < s.dist x) := by
  simp only [relaxEdge]
  split
  case isTrue hcond =>
    constructor
    · intro x
      dsimp only
      by_cases hx : x = ve.1
      · subst hx
        rw [upd_same]
        exact le_trans hcond.le (hz.1 ve.1)
      · rw [upd_other _ _ _ hx]
        exact hz.1 x
    · intro _
      refine ⟨ve.1, ?_⟩
      dsimp only
      rw [upd_same]
      exact lt_of_lt_of_le hcond (hz.1 ve.1)
  case isFalse hcond => exact hz

/-- A pass that reports a change never increases any distance and
strictly decreases at least one. -/
theorem relaxPass_decreases {g : Graph Node Edge} {w : Edge → D} {s : St Node Edge D}
    (h : (relaxPass g w s).2 = true) :
    (∀ x, (relaxPass g w s).1.dist x ≤ s.dist x) ∧
      (∃ x, (relaxPass g w s).1.dist x < s.dist x) := by
  have key := foldl_preserve
    (fun y : St Node Edge D × Bool =>
      (∀ x, y.1.dist x ≤ s.dist x) ∧ (y.2 = true → ∃ x, y.1.dist x < s.dist x))
    (fun sc p => relaxNode w sc p.1 p.2) g (s, false)
    ⟨fun _ => le_refl _, fun hf => Bool.noConfusion hf⟩ ?_
  · exact ⟨key.1, key.2 h⟩
  · intro p hp x hx
    refine foldl_preserve
      (fun y : St Node Edge D × Bool =>
        (∀ t, y.1.dist t ≤ s.dist t) ∧ (y.2 = true → ∃ t, y.1.dist t < s.dist t))
      (fun sc ve => relaxEdge w sc p.1 ve) p.2 x hx ?_
    intro ve hve z hz
    exact relaxEdge_decreases hz

end Mechanism

section ClaimC5

variable [DecidableEq Node] [LinearOrderedAddCommGroup D]

/-- C5: the termination mechanism of `NegCycleFinder::howard`: a pass
reporting no change leaves every distance (indeed the whole state)
unchanged and ends the loop; a pass reporting a change strictly decreases
at least one distance while increasing none; and a pass that yields at
least one cycle is the last pass, whatever fuel remains. -/
theorem howard_termination_mechanism (g : Graph Node Edge) (w : Edge → D) (wf : Nat) :
    (∀ s : St Node Edge D, (relaxPass g w s).2 = false → (relaxPass g w s).1 = s) ∧
    (∀ s : St Node Edge D, (relaxPass g w s).2 = true →
      (∀ x, (relaxPass g w s).1.dist x ≤ s.dist x) ∧
      (∃ x, (relaxPass g w s).1.dist x < s.dist x)) ∧
    (∀ (s : St Node Edge D) (pf : Nat), (relaxPass g w s).2 = true →
      (collect g (relaxPass g w s).1.pred wf).isEmpty = false →
      howardLoop g w wf (pf + 1) s =
        (collect g (relaxPass g w s).1.pred wf, (relaxPass g w s).1, true)) := by
  refine ⟨fun s h => by rw [relaxPass_false_eq h], fun s h => relaxPass_decreases h, ?_⟩
  intro s pf hchg hne
  simp only [howardLoop]
  rw [if_pos hchg, if_neg (by simp [hne])]

theorem howard_termination_mechanism_witness :
    ((relaxPass (wgSelf 1) (id : Int → Int) ⟨fun _ => 0, fun _ => none⟩).2 = false) ∧
    ((relaxPass (wgSelf 1) (id : Int → Int) ⟨fun _ => 0, fun _ => none⟩).1 =
      (⟨fun _ => 0, fun _ => none⟩ : St Nat Int Int)) ∧
    ((relaxPass wgLoop (id : Int → Int) ⟨fun _ => 0, fun _ => none⟩).2 = true) ∧
    (∃ x, (relaxPass wgLoop (id : Int → Int) ⟨fun _ => 0, fun _ => none⟩).1.dist x
      < (fun _ => (0 : Int)) x) :=
  ⟨by decide,
   (howard_termination_mechanism (wgSelf 1) id 2).1 _ (by decide),
   by decide,
   ((howard_termination_mechanism wgLoop id 2).2.1 _ (by decide)).2⟩

end ClaimC5

section EdgesInv

variable [DecidableEq Node] [LinearOrderedAddCommGroup D]

theorem relaxPass_invEdges {g : Graph Node Edge} {w : Edge → D} {s : St Node Edge D}
    (h : InvEdges g s.pred) : InvEdges g (relaxPass g w s).1.pred := by
  refine foldl_preserve (fun sc : St Node Edge D × Bool => InvEdges g sc.1.pred)
    (fun sc p => relaxNode w sc p.1 p.2) g (s, false) h ?_
  intro p hp x hx
  refine foldl_preserve (fun sc : St Node Edge D × Bool => InvEdges g sc.1.pred)
    (fun sc ve => relaxEdge w sc p.1 ve) p.2 x hx ?_
  intro ve hve z hz
  show InvEdges g (relaxEdge w z p.1 ve).1.pred
  simp only [relaxEdge]
  split
  case isTrue hcond =>
    intro a y ε ha
    dsimp only at ha
    by_cases hav : a = ve.1
    · subst hav
      rw [upd_same] at ha
      injection ha with ha
      injection ha with h1 h2
      subst h1; subst h2
      exact ⟨p.2, hp, hve⟩
    · rw [upd_other _ _ _ hav] at ha
      exact hz a y ε ha
  case isFalse hcond => exact hz

theorem relaxPredQPass_invEdges {g : Graph Node Edge} {ok : D → D → Bool}
    {w : Edge → D} {s : StQ Node Edge D}
    (h : InvEdges g s.pred) : InvEdges g (relaxPredQPass g ok w s).1.pred := by
  refine foldl_preserve (fun sc : StQ Node Edge D × Bool => InvEdges g sc.1.pred)
    (fun sc p => relaxPredQNode ok w sc p.1 p.2) g (s, false) h ?_
  intro p hp x hx
  refine foldl_preserve (fun sc : StQ Node Edge D × Bool => InvEdges g sc.1.pred)
    (fun sc ve => relaxPredQEdge ok w sc p.1 ve) p.2 x hx ?_
  intro ve hve z hz
  show InvEdges g (relaxPredQEdge ok w z p.1 ve).1.pred
  simp only [relaxPredQEdge]
  split
  case isTrue hcond =>
    intro a y ε ha
    dsimp only at ha
    by_cases hav : a = ve.1
    · subst hav
      rw [upd_same] at ha
      injection ha with ha
      injection ha with h1 h2
      subst h1; subst h2
      exact ⟨p.2, hp, hve⟩
    · rw [upd_other _ _ _ hav] at ha
      exact hz a y ε ha
  case isFalse hcond => exact hz

theorem relaxSuccQPass_invEdges {g : Graph Node Edge} {ok : D → D → Bool}
    {w : Edge → D} {s : StQ Node Edge D}
    (h : InvEdgesSucc g s.succ) : InvEdgesSucc g (relaxSuccQPass g ok w s).1.succ := by
  refine foldl_preserve (fun sc : StQ Node Edge D × Bool => InvEdgesSucc g sc.1.succ)
    (fun sc p => relaxSuccQNode ok w sc p.1 p.2) g (s, false) h ?_
  intro p hp x hx
  refine foldl_preserve (fun sc : StQ Node Edge D × Bool => InvEdgesSucc g sc.1.succ)
    (fun sc ve => relaxSuccQEdge ok w sc p.1 ve) p.2 x hx ?_
  intro ve hve z hz
  show InvEdgesSucc g (relaxSuccQEdge ok w z p.1 ve).1.succ
  simp only [relaxSuccQEdge]
  split
  case isTrue hcond =>
    intro a y ε ha
    dsimp only at ha
    by_cases hav : a = p.1
    · subst hav
      rw [upd_same] at ha
      injection ha with ha
      injection ha with h1 h2
      subst h1; subst h2
      exact ⟨p.2, hp, hve⟩
    · rw [upd_other _ _ _ hav] at ha
      exact hz a y ε ha
  case isFalse hcond => exact hz

end EdgesInv

section ClaimC9

variable [DecidableEq Node] [LinearOrderedAddCommGroup D]

/-- C9: after any number of relaxation passes of any `howard_*`
invocation (each starts from a cleared policy), every predecessor-policy
entry `pred[v] = (u, e)` is an edge `u → v` with payload `e` of the graph
view, and every successor-policy entry `succ[u] = (v, e)` is an edge
`u → v` with payload `e` of the graph view. -/
theorem policy_entries_are_graph_edges (g : Graph Node Edge) (w : Edge → D)
    (ok : D → D → Bool) (n : Nat) (d0 : Node → D)
    (pred0 succ0 : Node → Option (Node × Edge)) :
    InvEdges g (iterRelax g w n ⟨d0, fun _ => none⟩).pred ∧
    InvEdges g (iterRelaxPredQ g ok w n ⟨d0, fun _ => none, succ0⟩).pred ∧
    InvEdgesSucc g (iterRelaxSuccQ g ok w n ⟨d0, pred0, fun _ => none⟩).succ := by
  refine ⟨?_, ?_, ?_⟩
  · have key : ∀ n (s : St Node Edge D), InvEdges g s.pred →
        InvEdges g (iterRelax g w n s).pred := by
      intro n
      induction n with
      | zero => intro s hs; exact hs
      | succ n ih =>
        intro s hs
        exact ih _ (relaxPass_invEdges hs)
    exact key n _ (fun v u e h => Option.noConfusion h)
  · have key : ∀ n (s : StQ Node Edge D), InvEdges g s.pred →
        InvEdges g (iterRelaxPredQ g ok w n s).pred := by
      intro n
      induction n with
      | zero => intro s hs; exact hs
      | succ n ih =>
        intro s hs
        exact ih _ (relaxPredQPass_invEdges hs)
    exact key n _ (fun v u e h => Option.noConfusion h)
  · have key : ∀ n (s : StQ Node Edge D), InvEdgesSucc g s.succ →
        InvEdgesSucc g (iterRelaxSuccQ g ok w n s).succ := by
      intro n
      induction n with
      | zero => intro s hs; exact hs
      | succ n ih =>
        intro s hs
        exact ih _ (relaxSuccQPass_invEdges hs)
    exact key n _ (fun v u e h => Option.noConfusion h)

theorem policy_entries_are_graph_edges_witness :
    (iterRelax wgLoop (id : Int → Int) 1 ⟨fun _ => 0, fun _ => none⟩).pred 0 =
      some (0, -1) ∧ EdgeIn wgLoop 0 0 (-1 : Int) :=
  ⟨by decide,
   (policy_entries_are_graph_edges wgLoop id (fun _ _ => true) 1 (fun _ => 0)
      (fun _ => none) (fun _ => none)).1 0 0 (-1) (by decide)⟩

end ClaimC9

section ClaimC8

variable [DecidableEq Node] [LinearOrderedAddCommGroup D]

/-- C8: one successor-relaxation pass of `NegCycleFinderQ::howard_succ`
scans every edge `(u → v, e)` in order; at each edge, with
`d = dist[v] - w(e)`, it performs the update `dist[u] := d`,
`succ[u] := (v, e)` exactly when `dist[u] < d` and `update_ok(dist[u], d)`
both hold, changes nothing else at that step, and the pass never touches
the predecessor policy. -/
theorem relax_succ_exact (g : Graph Node Edge) (ok : D → D → Bool) (w : Edge → D) :
    (∀ (sc : StQ Node Edge D × Bool) (utx : Node) (ve : Node × Edge),
      ((sc.1.dist utx < sc.1.dist ve.1 - w ve.2 ∧
          ok (sc.1.dist utx) (sc.1.dist ve.1 - w ve.2) = true) →
        relaxSuccQEdge ok w sc utx ve =
          (⟨upd sc.1.dist utx (sc.1.dist ve.1 - w ve.2), sc.1.pred,
            upd sc.1.succ utx (some (ve.1, ve.2))⟩, true)) ∧
      (¬(sc.1.dist utx < sc.1.dist ve.1 - w ve.2 ∧
          ok (sc.1.dist utx) (sc.1.dist ve.1 - w ve.2) = true) →
        relaxSuccQEdge ok w sc utx ve = sc) ∧
      (∀ x, x ≠ utx →
        (relaxSuccQEdge ok w sc utx ve).1.dist x = sc.1.dist x ∧
        (relaxSuccQEdge ok w sc utx ve).1.succ x = sc.1.succ x)) ∧
    (∀ s : StQ Node Edge D, (relaxSuccQPass g ok w s).1.pred = s.pred) := by
  constructor
  · intro sc utx ve
    refine ⟨?_, ?_, ?_⟩
    · intro hcond
      simp only [relaxSuccQEdge]
      rw [if_pos hcond]
    · intro hcond
      simp only [relaxSuccQEdge]
      rw [if_neg hcond]
    · intro x hx
      simp only [relaxSuccQEdge]
      split
      · exact ⟨upd_other _ _ _ hx, upd_other _ _ _ hx⟩
      · exact ⟨rfl, rfl⟩
  · intro s
    refine foldl_preserve (fun sc : StQ Node Edge D × Bool => sc.1.pred = s.pred)
      (fun sc p => relaxSuccQNode ok w sc p.1 p.2) g (s, false) rfl ?_
    intro p hp x hx
    refine foldl_preserve (fun sc : StQ Node Edge D × Bool => sc.1.pred = s.pred)
      (fun sc ve => relaxSuccQEdge ok w sc p.1 ve) p.2 x hx ?_
    intro ve hve z hz
    show (relaxSuccQEdge ok w z p.1 ve).1.pred = s.pred
    simp only [relaxSuccQEdge]
    split
    · exact hz
    · exact hz

theorem relax_succ_exact_witness :
    ((0 : Int) < (fun _ => (0 : Int)) 1 - id (-3 : Int) ∧ (fun _ _ => true) (0 : Int) (3 : Int) = true) ∧
    relaxSuccQEdge (fun _ _ => true) (id : Int → Int)
        ((⟨fun _ => 0, fun _ => none, fun _ => none⟩ : StQ Nat Int Int), false) 0 (1, -3) =
      (⟨upd (fun _ => (0 : Int)) 0 ((fun _ => (0 : Int)) 1 - id (-3)), fun _ => none,
        upd (fun _ => none) 0 (some (1, -3))⟩, true) :=
  ⟨⟨by decide, rfl⟩,
   ((relax_succ_exact ([] : Graph Nat Int) (fun _ _ => true) id).1
      ((⟨fun _ => 0, fun _ => none, fun _ => none⟩ : StQ Nat Int Int), false) 0 (1, -3)).1
    ⟨by decide, rfl⟩⟩

end ClaimC8

section Refinement

variable [DecidableEq Node] [LinearOrderedAddCommGroup D]

theorem foldl_rel {α β γ : Type} (Rl : α → γ → Prop) (f : α → β → α) (g : γ → β → γ)
    (h : ∀ b a c, Rl a c → Rl (f a b) (g c b)) :
    ∀ (l : List β) a c, Rl a c → Rl (l.foldl f a) (l.foldl g c) := by
  intro l
  induction l with
  | nil => intro a c h0; exact h0
  | cons b bs ih => intro a c h0; exact ih _ _ (h b a c h0)

/-- With the constant-true update filter, one `_relax_pred` edge step of
`NegCycleFinderQ` acts on `(dist, pred)` exactly as the `_relax` edge step
of `NegCycleFinder`, and never touches `_succ`. -/
theorem relaxPredQEdge_true_sim {w : Edge → D} {z : StQ Node Edge D × Bool}
    {p : St Node Edge D × Bool} {utx : Node} {ve : Node × Edge}
    (hd : z.1.dist = p.1.dist) (hp : z.1.pred = p.1.pred) (hb : z.2 = p.2) :
    (relaxPredQEdge (fun _ _ => true) w z utx ve).1.dist = (relaxEdge w p utx ve).1.dist ∧
    (relaxPredQEdge (fun _ _ => true) w z utx ve).1.pred = (relaxEdge w p utx ve).1.pred ∧
    (relaxPredQEdge (fun _ _ => true) w z utx ve).2 = (relaxEdge w p utx ve).2 ∧
    (relaxPredQEdge (fun _ _ => true) w z utx ve).1.succ = z.1.succ := by
  simp only [relaxPredQEdge, relaxEdge, hd, hp, hb, and_true]
  by_cases hc : p.1.dist ve.1 > p.1.dist utx + w ve.2
  · rw [if_pos hc, if_pos hc]
    exact ⟨rfl, rfl, rfl, rfl⟩
  · rw [if_neg hc, if_neg hc]
    exact ⟨hd, hp, hb, rfl⟩

theorem relaxPredQPass_true_sim {g : Graph Node Edge} {w : Edge → D}
    {z : StQ Node Edge D} {p : St Node Edge D}
    (h1 : z.dist = p.dist) (h2 : z.pred = p.pred) :
    (relaxPredQPass g (fun _ _ => true) w z).1.dist = (relaxPass g w p).1.dist ∧
    (relaxPredQPass g (fun _ _ => true) w z).1.pred = (relaxPass g w p).1.pred ∧
    (relaxPredQPass g (fun _ _ => true) w z).2 = (relaxPass g w p).2 := by
  refine foldl_rel
    (fun (a : StQ Node Edge D × Bool) (c : St Node Edge D × Bool) =>
      a.1.dist = c.1.dist ∧ a.1.pred = c.1.pred ∧ a.2 = c.2)
    (fun sc q => relaxPredQNode (fun _ _ => true) w sc q.1 q.2)
    (fun sc q => relaxNode w sc q.1 q.2) ?_ g (z, false) (p, false) ⟨h1, h2, rfl⟩
  intro q a c hac
  refine foldl_rel
    (fun (a : StQ Node Edge D × Bool) (c : St Node Edge D × Bool) =>
      a.1.dist = c.1.dist ∧ a.1.pred = c.1.pred ∧ a.2 = c.2)
    (fun sc ve => relaxPredQEdge (fun _ _ => true) w sc q.1 ve)
    (fun sc ve => relaxEdge w sc q.1 ve) ?_ q.2 a c hac
  intro ve a' c' h'
  obtain ⟨hd, hpr, hbf⟩ := h'
  obtain ⟨e1, e2, e3, _⟩ := relaxPredQEdge_true_sim hd hpr hbf
  exact ⟨e1, e2, e3⟩

theorem howardPredQLoop_true_sim {g : Graph Node Edge} {w : Edge → D} {wf : Nat} :
    ∀ (pf : Nat) (z : StQ Node Edge D) (p : St Node Edge D),
    z.dist = p.dist → z.pred = p.pred →
    (howardPredQLoop g w (fun _ _ => true) wf pf z).1 = (howardLoop g w wf pf p).1 ∧
    (howardPredQLoop g w (fun _ _ => true) wf pf z).2.1.dist =
      (howardLoop g w wf pf p).2.1.dist ∧
    (howardPredQLoop g w (fun _ _ => true) wf pf z).2.1.pred =
      (howardLoop g w wf pf p).2.1.pred ∧
    (howardPredQLoop g w (fun _ _ => true) wf pf z).2.2 = (howardLoop g w wf pf p).2.2 := by
  intro pf
  induction pf with
  | zero => intro z p h1 h2; exact ⟨rfl, h1, h2, rfl⟩
  | succ pf ih =>
    intro z p h1 h2
    obtain ⟨e1, e2, e3⟩ := relaxPredQPass_true_sim (g := g) (w := w) h1 h2
    simp only [howardPredQLoop, howardLoop]
    rw [e3, e2]
    by_cases hc : (relaxPass g w p).2 = true
    · rw [if_pos hc, if_pos hc]
      by_cases hemp : (collect g (relaxPass g w p).1.pred wf).isEmpty = true
      · rw [if_pos hemp, if_pos hemp]
        exact ih _ _ e1 e2
      · rw [if_neg hemp, if_neg hemp]
        exact ⟨rfl, e1, e2, rfl⟩
    · rw [if_neg hc, if_neg hc]
      exact ⟨rfl, e1, e2, rfl⟩

end Refinement

section ClaimC10

variable [DecidableEq Node] [LinearOrderedAddCommGroup D]

/-- C10: `NegCycleFinderQ::howard_pred` with the constant-true update
filter yields exactly the cycles of `NegCycleFinder::howard`, leaves the
distance map (and predecessor policy) in the same final state, and
completes under the same fuel; the untouched `_succ` map is the only
difference in state. -/
theorem howard_predQ_refines_howard (g : Graph Node Edge) (w : Edge → D)
    (wf pf : Nat) (d0 : Node → D) (succ0 : Node → Option (Node × Edge)) :
    (howardPredQ g w (fun _ _ => true) wf pf d0 succ0).1 = (howard g w wf pf d0).1 ∧
    (howardPredQ g w (fun _ _ => true) wf pf d0 succ0).2.1.dist =
      (howard g w wf pf d0).2.1.dist ∧
    (howardPredQ g w (fun _ _ => true) wf pf d0 succ0).2.1.pred =
      (howard g w wf pf d0).2.1.pred ∧
    (howardPredQ g w (fun _ _ => true) wf pf d0 succ0).2.2 =
      (howard g w wf pf d0).2.2 :=
  howardPredQLoop_true_sim pf ⟨d0, fun _ => none, succ0⟩ ⟨d0, fun _ => none⟩ rfl rfl

end ClaimC10

section Feasibility

variable [DecidableEq Node] [LinearOrderedAddCommGroup D]

theorem relaxEdge_false_inv {w : Edge → D} {sc : St Node Edge D × Bool}
    {u : Node} {ve : Node × Edge} (h : (relaxEdge w sc u ve).2 = false) :
    ¬(sc.1.dist ve.1 > sc.1.dist u + w ve.2) ∧ relaxEdge w sc u ve = sc := by
  revert h
  simp only [relaxEdge]
  split
  case isTrue hc => intro h; exact absurd h (by simp)
  case isFalse hc => intro _; exact ⟨hc, rfl⟩

theorem relaxNode_false_feasible {w : Edge → D} {u : Node} :
    ∀ (nbrs : List (Node × Edge)) (sc : St Node Edge D × Bool),
      (relaxNode w sc u nbrs).2 = false →
      (∀ ve ∈ nbrs, ¬(sc.1.dist ve.1 > sc.1.dist u + w ve.2)) ∧
        relaxNode w sc u nbrs = sc := by
  intro nbrs
  induction nbrs with
  | nil =>
    intro sc h
    exact ⟨fun ve hve => absurd hve (List.not_mem_nil ve), rfl⟩
  | cons ve rest ih =>
    intro sc h
    have hfold : relaxNode w sc u (ve :: rest) =
        relaxNode w (relaxEdge w sc u ve) u rest := rfl
    rw [hfold] at h
    obtain ⟨hrest, heq⟩ := ih (relaxEdge w sc u ve) h
    have hef : (relaxEdge w sc u ve).2 = false := by
      rw [← heq]
      exact h
    obtain ⟨hcond, hee⟩ := relaxEdge_false_inv hef
    constructor
    · intro ve' hve'
      rcases List.mem_cons.mp hve' with rfl | hm
      · exact hcond
      · have h' := hrest ve' hm
        rw [hee] at h'
        exact h'
    · rw [hfold, heq, hee]

/-- A relaxation pass that reports no change certifies that no edge of the
graph view is relaxable at the current distances. -/
theorem relaxPass_false_feasible {g : Graph Node Edge} {w : Edge → D}
    {s : St Node Edge D} (h : (relaxPass g w s).2 = false) :
    Feasible g w s.dist := by
  have key : ∀ (l : List (Node × List (Node × Edge))) (sc : St Node Edge D × Bool),
      (l.foldl (fun sc p => relaxNode w sc p.1 p.2) sc).2 = false →
      (∀ p ∈ l, ∀ ve ∈ p.2, ¬(sc.1.dist ve.1 > sc.1.dist p.1 + w ve.2)) ∧
        l.foldl (fun sc p => relaxNode w sc p.1 p.2) sc = sc := by
    intro l
    induction l with
    | nil =>
      intro sc h0
      exact ⟨fun p hp => absurd hp (List.not_mem_nil p), rfl⟩
    | cons p rest ih =>
      intro sc h0
      have hfold : (p :: rest).foldl (fun sc p => relaxNode w sc p.1 p.2) sc =
          rest.foldl (fun sc p => relaxNode w sc p.1 p.2) (relaxNode w sc p.1 p.2) := rfl
      rw [hfold] at h0
      obtain ⟨hrest, heq⟩ := ih (relaxNode w sc p.1 p.2) h0
      have hnf : (relaxNode w sc p.1 p.2).2 = false := by
        rw [← heq]
        exact h0
      obtain ⟨hcond, hee⟩ := relaxNode_false_feasible p.2 sc hnf
      constructor
      · intro p' hp' ve hve
        rcases List.mem_cons.mp hp' with rfl | hm
        · exact hcond ve hve
        · have h' := hrest p' hm ve hve
          rw [hee] at h'
          exact h'
      · rw [hfold, heq, hee]
  intro u v e he
  obtain ⟨nbrs, hmem, hve⟩ := he
  exact (key g (s, false) h).1 (u, nbrs) hmem (v, e) hve

/-- Under a feasible potential, every `_cycle_list` walk over a policy of
graph edges has total weight bounded below by the potential drop. -/
theorem cycleListAux_feasible {g : Graph Node Edge} {w : Edge → D} {φ : Node → D}
    (hf : Feasible g w φ) {pr : Node → Option (Node × Edge)}
    (hpr : InvEdges g pr) {handle : Node} :
    ∀ fuel v l, cycleListAux pr handle fuel v = some l →
      φ v ≤ φ handle + wsum w l := by
  intro fuel
  induction fuel with
  | zero => intro v l h; simp [cycleListAux] at h
  | succ fuel ih =>
    intro v l h
    cases hv : pr v with
    | none => simp [cycleListAux, hv] at h
    | some ue =>
      obtain ⟨u, e⟩ := ue
      simp only [cycleListAux, hv] at h
      have hedge : EdgeIn g u v e := hpr v u e hv
      have hfe : φ v ≤ φ u + w e := not_lt.mp (hf u v e hedge)
      by_cases hu : u = handle
      · rw [if_pos hu] at h
        injection h with h
        subst h; subst hu
        simpa [wsum] using hfe
      · rw [if_neg hu] at h
        cases hq : cycleListAux pr handle fuel u with
        | none => rw [hq] at h; exact Option.noConfusion h
        | some l' =>
          rw [hq] at h
          simp only [Option.map_some'] at h
          injection h with h
          subst h
          have hrec := ih u l' hq
          calc φ v ≤ φ u + w e := hfe
            _ ≤ (φ handle + wsum w l') + w e := add_le_add_right hrec _
            _ = φ handle + wsum w (e :: l') := by
                simp only [wsum, List.map_cons, List.sum_cons]; abel

/-- A `howard` loop that completes with an empty cycle sequence exhibits a
feasible potential for the graph (its final distance map). -/
theorem howardLoop_empty_complete {g : Graph Node Edge} {w : Edge → D} {wf : Nat} :
    ∀ pf (s : St Node Edge D), (howardLoop g w wf pf s).1 = [] →
      (howardLoop g w wf pf s).2.2 = true → ∃ φ, Feasible g w φ := by
  intro pf
  induction pf with
  | zero =>
    intro s h1 h2
    simp [howardLoop] at h2
  | succ pf ih =>
    intro s h1 h2
    simp only [howardLoop] at h1 h2
    by_cases hc : (relaxPass g w s).2 = true
    · rw [if_pos hc] at h1 h2
      by_cases hemp : (collect g (relaxPass g w s).1.pred wf).isEmpty = true
      · rw [if_pos hemp] at h1 h2
        exact ih _ h1 h2
      · rw [if_neg hemp] at h1
        have hcol : collect g (relaxPass g w s).1.pred wf = [] := h1
        rw [hcol] at hemp
        simp at hemp
    · rw [if_neg hc] at h1 h2
      have hq : (relaxPass g w s).2 = false := by simpa using hc
      exact ⟨s.dist, relaxPass_false_feasible hq⟩

end Feasibility

section ClaimC6

variable [DecidableEq Node] [LinearOrderedAddCommGroup D]

/-- C6: for a fixed graph and weight functor, whether
`NegCycleFinder::howard` yields an empty or a nonempty cycle sequence does
not depend on the initial contents of the distance map (for runs that
reach the source's own exit condition): an empty completed run certifies a
feasible potential, under which no run can yield a (strictly negative)
cycle. -/
theorem howard_empty_independent_of_dist (g : Graph Node Edge) (w : Edge → D)
    (wf1 wf2 pf1 pf2 : Nat) (d1 d2 : Node → D)
    (hc1 : (howard g w wf1 pf1 d1).2.2 = true)
    (hc2 : (howard g w wf2 pf2 d2).2.2 = true) :
    ((howard g w wf1 pf1 d1).1 = [] ↔ (howard g w wf2 pf2 d2).1 = []) := by
  have key : ∀ wfa pfa (da : Node → D) wfb pfb (db : Node → D),
      (howard g w wfa pfa da).2.2 = true →
      (howard g w wfa pfa da).1 = [] → (howard g w wfb pfb db).1 = [] := by
    intro wfa pfa da wfb pfb db hca hea
    by_contra hne
    obtain ⟨c, hc⟩ : ∃ c, c ∈ (howard g w wfb pfb db).1 := by
      cases hq : (howard g w wfb pfb db).1 with
      | nil => exact absurd hq hne
      | cons c cs => exact ⟨c, List.mem_cons_self c cs⟩
    obtain ⟨hneg, pr, hpr, h, hcl⟩ :=
      howardLoop_yield pfb ⟨db, fun _ => none⟩ (InvAll_empty g w db) c hc
    obtain ⟨φ, hφ⟩ := howardLoop_empty_complete pfa ⟨da, fun _ => none⟩ hea hca
    have h0 := cycleListAux_feasible hφ hpr wfb h c hcl
    have h0' : φ h + 0 ≤ φ h + wsum w c := by simpa using h0
    have hge : (0 : D) ≤ wsum w c := le_of_add_le_add_left h0'
    exact absurd hneg (not_lt.mpr hge)
  exact ⟨key wf1 pf1 d1 wf2 pf2 d2 hc1, key wf2 pf2 d2 wf1 pf1 d1 hc2⟩

theorem howard_empty_independent_witness :
    ((howard wgLoop (id : Int → Int) 3 3 (fun _ => 0)).2.2 = true) ∧
    ((howard wgLoop (id : Int → Int) 3 3 (fun _ => 5)).2.2 = true) ∧
    (((howard wgLoop (id : Int → Int) 3 3 (fun _ => 0)).1 = []) ↔
      ((howard wgLoop (id : Int → Int) 3 3 (fun _ => 5)).1 = [])) :=
  ⟨by decide, by decide,
   howard_empty_independent_of_dist wgLoop id 3 3 3 3 (fun _ => 0) (fun _ => 5)
     (by decide) (by decide)⟩

end ClaimC6

section ParamFold

variable [LinearOrder R]

theorem paramFold_le {Edge : Type} (zc : List Edge → R) :
    ∀ (cs : List (List Edge)) (p : R × List Edge),
      (cs.foldl (paramStep zc) p).1 ≤ p.1 := by
  intro cs
  induction cs with
  | nil => intro p; exact le_refl _
  | cons c cs ih =>
    intro p
    have h1 := ih (paramStep zc p c)
    have h2 : (paramStep zc p c).1 ≤ p.1 := by
      simp only [paramStep]
      split
      case isTrue h => exact (le_of_lt h)
      case isFalse h => exact le_refl _
    exact le_trans h1 h2

theorem paramFold_le_all {Edge : Type} (zc : List Edge → R) :
    ∀ (cs : List (List Edge)) (p : R × List Edge) (c : List Edge), c ∈ cs →
      (cs.foldl (paramStep zc) p).1 ≤ zc c := by
  intro cs
  induction cs with
  | nil => intro p c hc; exact absurd hc (List.not_mem_nil c)
  | cons c0 cs ih =>
    intro p c hc
    rcases List.mem_cons.mp hc with rfl | hm
    · have h1 := paramFold_le zc cs (paramStep zc p c)
      have h2 : (paramStep zc p c).1 ≤ zc c := by
        simp only [paramStep]
        split
        case isTrue h => exact le_refl _
        case isFalse h => exact not_lt.mp h
      exact le_trans h1 h2
    · exact ih (paramStep zc p c0) c hm

theorem paramFold_eq_or_mem {Edge : Type} (zc : List Edge → R) :
    ∀ (cs : List (List Edge)) (p : R × List Edge),
      cs.foldl (paramStep zc) p = p ∨
      ((cs.foldl (paramStep zc) p).2 ∈ cs ∧
        zc (cs.foldl (paramStep zc) p).2 = (cs.foldl (paramStep zc) p).1) := by
  intro cs
  induction cs with
  | nil => intro p; exact Or.inl rfl
  | cons c0 cs ih =>
    intro p
    by_cases hf : p.1 > zc c0
    · have hstep : paramStep zc p c0 = (zc c0, c0) := by
        simp only [paramStep]
        rw [if_pos hf]
      rcases ih (paramStep zc p c0) with heq | ⟨hm, hz⟩
      · rw [show (c0 :: cs).foldl (paramStep zc) p = cs.foldl (paramStep zc) (paramStep zc p c0) from rfl,
          heq, hstep]
        exact Or.inr ⟨List.mem_cons_self c0 cs, rfl⟩
      · exact Or.inr ⟨List.mem_cons_of_mem c0 hm, hz⟩
    · have hstep : paramStep zc p c0 = p := by
        simp only [paramStep]
        rw [if_neg hf]
      rcases ih (paramStep zc p c0) with heq | ⟨hm, hz⟩
      · rw [show (c0 :: cs).foldl (paramStep zc) p = cs.foldl (paramStep zc) (paramStep zc p c0) from rfl,
          heq, hstep]
        exact Or.inl rfl
      · exact Or.inr ⟨List.mem_cons_of_mem c0 hm, hz⟩

end ParamFold

section Chains

variable [DecidableEq Node] [LinearOrderedAddCommGroup D]

theorem chain_append {g : Graph Node Edge} :
    ∀ (c1 : List Edge) (c2 : List Edge) (a m b : Node),
      Chain g a c1 m → Chain g m c2 b → Chain g a (c1 ++ c2) b := by
  intro c1
  induction c1 with
  | nil =>
    intro c2 a m b h1 h2
    have ha : a = m := h1
    rw [List.nil_append, ha]
    exact h2
  | cons e l ih =>
    intro c2 a m b h1 h2
    obtain ⟨v, he, hch⟩ := h1
    exact ⟨v, he, ih c2 v m b hch h2⟩

/-- The reverse of a successful `_cycle_list` walk is a forward path in
the graph view from `handle` to the walk's start. -/
theorem cycleListAux_chain_rev {g : Graph Node Edge}
    {pr : Node → Option (Node × Edge)} (hpr : InvEdges g pr) {handle : Node} :
    ∀ fuel v l, cycleListAux pr handle fuel v = some l →
      Chain g handle l.reverse v := by
  intro fuel
  induction fuel with
  | zero => intro v l h; simp [cycleListAux] at h
  | succ fuel ih =>
    intro v l h
    cases hv : pr v with
    | none => simp [cycleListAux, hv] at h
    | some ue =>
      obtain ⟨u, e⟩ := ue
      simp only [cycleListAux, hv] at h
      have hedge : EdgeIn g u v e := hpr v u e hv
      by_cases hu : u = handle
      · rw [if_pos hu] at h
        injection h with h
        subst h; subst hu
        exact ⟨v, hedge, rfl⟩
      · rw [if_neg hu] at h
        cases hq : cycleListAux pr handle fuel u with
        | none => rw [hq] at h; exact Option.noConfusion h
        | some l' =>
          rw [hq] at h
          simp only [Option.map_some'] at h
          injection h with h
          subst h
          have hch := ih u l' hq
          rw [List.reverse_cons]
          exact chain_append l'.reverse [e] handle u v hch ⟨v, hedge, rfl⟩

/-- A yielded cycle, read in reverse, is a directed cycle of the graph
view. -/
theorem cycleList_graphCycle_rev {g : Graph Node Edge}
    {pr : Node → Option (Node × Edge)} (hpr : InvEdges g pr)
    {handle : Node} {fuel : Nat} {c : List Edge}
    (hc : cycleList pr fuel handle = some c) : GraphCycle g c.reverse := by
  have hch := cycleListAux_chain_rev hpr fuel handle c hc
  refine ⟨?_, handle, hch⟩
  intro hrev
  have hne := (cycleListAux_iter (w := fun _ => (0 : Int)) fuel handle c hc).1
  refine hne ?_
  cases c with
  | nil => rfl
  | cons e l => simp at hrev

theorem chain_feasible {g : Graph Node Edge} {w : Edge → D} {φ : Node → D}
    (hf : Feasible g w φ) :
    ∀ (c : List Edge) (a b : Node), Chain g a c b → φ b ≤ φ a + wsum w c := by
  intro c
  induction c with
  | nil =>
    intro a b h
    have ha : a = b := h
    subst ha
    simp [wsum]
  | cons e l ih =>
    intro a b h
    obtain ⟨v, he, hch⟩ := h
    have h1 : φ v ≤ φ a + w e := not_lt.mp (hf a v e he)
    have h2 := ih v b hch
    calc φ b ≤ φ v + wsum w l := h2
      _ ≤ (φ a + w e) + wsum w l := add_le_add_right h1 _
      _ = φ a + wsum w (e :: l) := by
          simp only [wsum, List.map_cons, List.sum_cons]; abel

/-- Under a feasible potential every directed cycle of the graph view has
nonnegative total weight. -/
theorem graphCycle_feasible_nonneg {g : Graph Node Edge} {w : Edge → D}
    {φ : Node → D} (hf : Feasible g w φ) {c : List Edge}
    (hc : GraphCycle g c) : (0 : D) ≤ wsum w c := by
  obtain ⟨hne, a, hch⟩ := hc
  have h0 := chain_feasible hf c a a hch
  have h0' : φ a + 0 ≤ φ a + wsum w c := by simpa using h0
  exact le_of_add_le_add_left h0'

theorem wsum_reverse (w : Edge → D) (c : List Edge) : wsum w c.reverse = wsum w c := by
  simp [wsum, List.map_reverse, List.sum_reverse]

end Chains

section ParamSpec

variable [DecidableEq Node] [LinearOrderedAddCommGroup D] [LinearOrder R]

/-- The cycles of one `howard` run are strictly negative under its weight
functor and are reversed directed cycles of the graph view. -/
theorem howard_run_cycles {g : Graph Node Edge} {w : Edge → D} {wf pf : Nat}
    {d0 : Node → D} {c : List Edge} (hc : c ∈ (howard g w wf pf d0).1) :
    wsum w c < 0 ∧ GraphCycle g c.reverse := by
  obtain ⟨hneg, pr, hpr, h, hcl⟩ :=
    howardLoop_yield pf ⟨d0, fun _ => none⟩ (InvAll_empty g w d0) c hc
  exact ⟨hneg, cycleList_graphCycle_rev hpr hcl⟩

/-- Core specification of the `max_parametric` outer loop: on completion,
no directed cycle of the graph has a `zero_cancel` value below the final
parameter, and the returned cycle either is the untouched initial `c_opt`
with the untouched initial parameter, or realizes the final parameter. -/
theorem maxParamGo_spec {g : Graph Node Edge} {distance : R → Edge → D}
    {zc : List Edge → R} {wf pf : Nat} {r0 : R}
    (hlink : ∀ (c : List Edge) (r : R), (GraphCycle g c ∨ GraphCycle g c.reverse) →
      ((wsum (fun e => distance r e) c < 0) ↔ zc c < r)) :
    ∀ (n : Nat) (r : R) (cOpt : List Edge) (dist : Node → D),
      ((cOpt = [] ∧ r = r0) ∨ (zc cOpt = r ∧ GraphCycle g cOpt.reverse)) →
      (maxParamGo g distance zc wf pf n r cOpt dist).2.2.2 = true →
      (∀ c, GraphCycle g c → ¬(zc c < (maxParamGo g distance zc wf pf n r cOpt dist).1)) ∧
      (((maxParamGo g distance zc wf pf n r cOpt dist).2.1 = [] ∧
          (maxParamGo g distance zc wf pf n r cOpt dist).1 = r0) ∨
        (zc (maxParamGo g distance zc wf pf n r cOpt dist).2.1 =
            (maxParamGo g distance zc wf pf n r cOpt dist).1 ∧
          GraphCycle g (maxParamGo g distance zc wf pf n r cOpt dist).2.1.reverse)) := by
  intro n
  induction n with
  | zero =>
    intro r cOpt dist hinv hflag
    simp [maxParamGo] at hflag
  | succ n ih =>
    intro r cOpt dist hinv hflag
    simp only [maxParamGo] at hflag ⊢
    by_cases hexit : r ≤
        ((howard g (fun e => distance r e) wf pf dist).1.foldl (paramStep zc) (r, cOpt)).1
    · rw [if_pos hexit] at hflag ⊢
      dsimp only at hflag ⊢
      have hempty : (howard g (fun e => distance r e) wf pf dist).1 = [] := by
        cases hq : (howard g (fun e => distance r e) wf pf dist).1 with
        | nil => rfl
        | cons c cs =>
          exfalso
          have hmem : c ∈ (howard g (fun e => distance r e) wf pf dist).1 := by
            rw [hq]; exact List.mem_cons_self c cs
          obtain ⟨hneg, hgc⟩ := howard_run_cycles hmem
          have hzc : zc c < r := (hlink c r (Or.inr hgc)).mp hneg
          have hle := paramFold_le_all zc
            (howard g (fun e => distance r e) wf pf dist).1 (r, cOpt) c hmem
          exact absurd hexit (not_le.mpr (lt_of_le_of_lt hle hzc))
      obtain ⟨φ, hφ⟩ := howardLoop_empty_complete pf ⟨dist, fun _ => none⟩ hempty hflag
      refine ⟨?_, hinv⟩
      intro c hc hlt
      have hnn := graphCycle_feasible_nonneg hφ hc
      exact absurd ((hlink c r (Or.inl hc)).mpr hlt) (not_lt.mpr hnn)
    · rw [if_neg hexit] at hflag ⊢
      dsimp only at hflag ⊢
      rw [Bool.and_eq_true] at hflag
      obtain ⟨hfl1, hfl2⟩ := hflag
      have hplt : ((howard g (fun e => distance r e) wf pf dist).1.foldl
          (paramStep zc) (r, cOpt)).1 < r := not_le.mp hexit
      have hinv' : (((howard g (fun e => distance r e) wf pf dist).1.foldl
            (paramStep zc) (r, cOpt)).2 = [] ∧
          ((howard g (fun e => distance r e) wf pf dist).1.foldl
            (paramStep zc) (r, cOpt)).1 = r0) ∨
          (zc ((howard g (fun e => distance r e) wf pf dist).1.foldl
              (paramStep zc) (r, cOpt)).2 =
            ((howard g (fun e => distance r e) wf pf dist).1.foldl
              (paramStep zc) (r, cOpt)).1 ∧
          GraphCycle g ((howard g (fun e => distance r e) wf pf dist).1.foldl
              (paramStep zc) (r, cOpt)).2.reverse) := by
        rcases paramFold_eq_or_mem zc
            (howard g (fun e => distance r e) wf pf dist).1 (r, cOpt) with heq | ⟨hm, hz⟩
        · exfalso
          rw [heq] at hplt
          exact lt_irrefl r hplt
        · obtain ⟨_, hgc⟩ := howard_run_cycles hm
          exact Or.inr ⟨hz, hgc⟩
      exact ih _ _ _ hinv' hfl1

end ParamSpec

section ClaimC3

variable [DecidableEq Node] [LinearOrderedAddCommGroup D] [LinearOrder R]

/-- C3: when `max_parametric` / `MaxParametricSolver::run` returns (its
outer loop and every inner `howard` run completing), with `zero_cancel`
and `distance` cohering on the graph's cycles (a cycle is negative under
`distance(r, ·)` iff its `zero_cancel` is below `r`): either the returned
cycle is the empty cycle, the parameter still equals the initial `r_opt`,
and no directed cycle of the graph improves on it; or the returned cycle
is a directed cycle of the graph (in reverse orientation) realizing
`zero_cancel(c*) = r*`, and no directed cycle of the graph has
`zero_cancel` strictly below `r*`. -/
theorem max_parametric_fixpoint (g : Graph Node Edge) (distance : R → Edge → D)
    (zc : List Edge → R) (wf pf of : Nat) (r0 : R) (d0 : Node → D)
    (hflag : (maxParametric g distance zc wf pf of r0 d0).2.2.2 = true)
    (hlink : ∀ (c : List Edge) (r : R), (GraphCycle g c ∨ GraphCycle g c.reverse) →
      ((wsum (fun e => distance r e) c < 0) ↔ zc c < r)) :
    (∀ c, GraphCycle g c → ¬(zc c < (maxParametric g distance zc wf pf of r0 d0).1)) ∧
    (((maxParametric g distance zc wf pf of r0 d0).2.1 = [] ∧
        (maxParametric g distance zc wf pf of r0 d0).1 = r0) ∨
      (zc (maxParametric g distance zc wf pf of r0 d0).2.1 =
          (maxParametric g distance zc wf pf of r0 d0).1 ∧
        GraphCycle g (maxParametric g distance zc wf pf of r0 d0).2.1.reverse)) :=
  maxParamGo_spec hlink of r0 [] d0 (Or.inl ⟨rfl, rfl⟩) hflag

theorem wgAcyc_no_cycle : ∀ c, ¬ GraphCycle wgAcyc c := by
  intro c hc
  obtain ⟨hne, a, hch⟩ := hc
  cases c with
  | nil => exact hne rfl
  | cons e l =>
    simp only [Chain] at hch
    obtain ⟨v, he, hch'⟩ := hch
    obtain ⟨nbrs, hmem, hvee⟩ := he
    simp only [wgAcyc, List.mem_singleton] at hmem
    injection hmem with ha hn
    subst ha; subst hn
    simp only [List.mem_singleton] at hvee
    injection hvee with hv hee
    subst hv; subst hee
    cases l with
    | nil =>
      simp only [Chain] at hch'
      exact absurd hch' (by decide)
    | cons e' l' =>
      simp only [Chain] at hch'
      obtain ⟨v', he', h3⟩ := hch'
      obtain ⟨nbrs', hmem', h4⟩ := he'
      simp only [wgAcyc, List.mem_singleton] at hmem'
      injection hmem' with h10 h11
      exact absurd h10 (by decide)

theorem max_parametric_fixpoint_witness :
    ((maxParametric wgAcyc (fun (r : Int) (e : Int) => e - r) (fun _ => (0 : Int))
        3 3 3 100 (fun _ => 0)).2.2.2 = true) ∧
    ((∀ c, GraphCycle wgAcyc c → ¬((fun _ => (0 : Int)) c <
        (maxParametric wgAcyc (fun (r : Int) (e : Int) => e - r) (fun _ => (0 : Int))
          3 3 3 100 (fun _ => 0)).1)) ∧
      (((maxParametric wgAcyc (fun (r : Int) (e : Int) => e - r) (fun _ => (0 : Int))
            3 3 3 100 (fun _ => 0)).2.1 = [] ∧
          (maxParametric wgAcyc (fun (r : Int) (e : Int) => e - r) (fun _ => (0 : Int))
            3 3 3 100 (fun _ => 0)).1 = 100) ∨
        ((fun _ => (0 : Int)) (maxParametric wgAcyc (fun (r : Int) (e : Int) => e - r)
            (fun _ => (0 : Int)) 3 3 3 100 (fun _ => 0)).2.1 =
            (maxParametric wgAcyc (fun (r : Int) (e : Int) => e - r) (fun _ => (0 : Int))
              3 3 3 100 (fun _ => 0)).1 ∧
          GraphCycle wgAcyc (maxParametric wgAcyc (fun (r : Int) (e : Int) => e - r)
            (fun _ => (0 : Int)) 3 3 3 100 (fun _ => 0)).2.1.reverse))) :=
  ⟨by decide,
   max_parametric_fixpoint wgAcyc (fun (r : Int) (e : Int) => e - r) (fun _ => (0 : Int))
     3 3 3 100 (fun _ => 0) (by decide)
     (fun c r hrel => absurd hrel (by
       rintro (h | h)
       · exact wgAcyc_no_cycle c h
       · exact wgAcyc_no_cycle c.reverse h))⟩

end ClaimC3

section RatioLemmas

variable [DecidableEq Node] [LinearOrderedField R]

theorem wsum_calcWeight (get_cost get_time : Edge → R) (r : R) :
    ∀ c : List Edge, wsum (fun e => calcWeight get_cost get_time r e) c =
      (c.map get_cost).sum - r * (c.map get_time).sum := by
  intro c
  induction c with
  | nil => simp [wsum]
  | cons e l ih =>
    simp only [wsum, List.map_cons, List.sum_cons] at ih ⊢
    rw [ih]
    simp only [calcWeight]
    ring

theorem chain_time_nonneg {g : Graph Node Edge} {get_time : Edge → R}
    (hpos : ∀ u v e, EdgeIn g u v e → 0 < get_time e) :
    ∀ (c : List Edge) (a b : Node), Chain g a c b → 0 ≤ (c.map get_time).sum := by
  intro c
  induction c with
  | nil => intro a b h; simp
  | cons e l ih =>
    intro a b h
    simp only [Chain] at h
    obtain ⟨v, he, hch⟩ := h
    have h1 := hpos a v e he
    have h2 := ih v b hch
    simp only [List.map_cons, List.sum_cons]
    exact add_nonneg h1.le h2

theorem graphCycle_time_pos {g : Graph Node Edge} {get_time : Edge → R}
    (hpos : ∀ u v e, EdgeIn g u v e → 0 < get_time e) {c : List Edge}
    (hc : GraphCycle g c) : 0 < (c.map get_time).sum := by
  obtain ⟨hne, a, hch⟩ := hc
  cases c with
  | nil => exact absurd rfl hne
  | cons e l =>
    simp only [Chain] at hch
    obtain ⟨v, he, hch'⟩ := hch
    have h1 := hpos a v e he
    have h2 := chain_time_nonneg hpos l v a hch'
    simp only [List.map_cons, List.sum_cons]
    exact add_pos_of_pos_of_nonneg h1 h2

end RatioLemmas

section ClaimC2

variable [DecidableEq Node] [LinearOrderedField R]

/-- C2: when `min_cycle_ratio` returns (all loops completing), on a graph
all of whose directed cycles have strictly positive total time, starting
from `r0` strictly above the optimum: the final parameter `r*` is the
minimum of `Σcost/Σtime` over all directed cycles of the graph, and the
returned cycle is a directed cycle (in reverse orientation) whose
cost/time ratio equals `r*`. -/
theorem min_cycle_ratio_optimal (g : Graph Node Edge) (get_cost get_time : Edge → R)
    (wf pf of : Nat) (r0 : R) (d0 : Node → R)
    (hflag : (minCycleRatio g get_cost get_time wf pf of r0 d0).2.2.2 = true)
    (htime : ∀ c, GraphCycle g c → 0 < (c.map get_time).sum)
    (himp : ∃ c0, GraphCycle g c0 ∧ calcRatio get_cost get_time c0 < r0) :
    (∀ c, GraphCycle g c →
      (minCycleRatio g get_cost get_time wf pf of r0 d0).1 ≤
        calcRatio get_cost get_time c) ∧
    GraphCycle g (minCycleRatio g get_cost get_time wf pf of r0 d0).2.1.reverse ∧
    calcRatio get_cost get_time (minCycleRatio g get_cost get_time wf pf of r0 d0).2.1 =
      (minCycleRatio g get_cost get_time wf pf of r0 d0).1 := by
  have hlink : ∀ (c : List Edge) (r : R),
      (GraphCycle g c ∨ GraphCycle g c.reverse) →
      ((wsum (fun e => calcWeight get_cost get_time r e) c < 0) ↔
        calcRatio get_cost get_time c < r) := by
    intro c r hrel
    have htpos : 0 < (c.map get_time).sum := by
      rcases hrel with h | h
      · exact htime c h
      · have h2 := htime c.reverse h
        rwa [List.map_reverse, List.sum_reverse] at h2
    rw [wsum_calcWeight]
    simp only [calcRatio]
    rw [sub_neg, div_lt_iff₀ htpos]
  have hspec := maxParamGo_spec hlink of r0 [] d0 (Or.inl ⟨rfl, rfl⟩)
    (by
      simp only [minCycleRatio, maxParametric] at hflag
      exact hflag)
  obtain ⟨hmin, hdisj⟩ := hspec
  simp only [minCycleRatio, maxParametric]
  rcases hdisj with ⟨hc1, hc2⟩ | ⟨hc1, hc2⟩
  · exfalso
    obtain ⟨c0, hgc, hlt⟩ := himp
    exact hmin c0 hgc (by rw [hc2]; exact hlt)
  · exact ⟨fun c hc => not_lt.mp (hmin c hc), hc2, hc1⟩

theorem wgRatio1_time_pos : ∀ (u v : Nat) (e : ℚ × ℚ), EdgeIn wgRatio1 u v e → 0 < e.2 := by
  intro u v e he
  obtain ⟨nbrs, hmem, hve⟩ := he
  simp only [wgRatio1, List.mem_singleton] at hmem
  injection hmem with hu hn
  subst hu; subst hn
  simp only [List.mem_singleton] at hve
  injection hve with hv hee
  subst hee
  norm_num

theorem wgRatio1_cycle : GraphCycle wgRatio1 [(((2 : ℚ), (1 : ℚ)))] := by
  refine ⟨by simp, 0, ?_⟩
  simp only [Chain]
  exact ⟨0, ⟨[(0, ((2 : ℚ), (1 : ℚ)))], List.mem_singleton.mpr rfl,
    List.mem_singleton.mpr rfl⟩, rfl⟩

theorem min_cycle_ratio_flag :
    (minCycleRatio wgRatio1 Prod.fst Prod.snd 2 3 3 (3 : ℚ) (fun _ => 0)).2.2.2 = true := by
  norm_num [minCycleRatio, maxParametric, maxParamGo, howard, howardLoop, relaxPass,
    relaxNode, relaxEdge, collect, findCycles, findCycleWalk, cycleList, cycleListAux,
    paramStep, calcRatio, calcWeight, wgRatio1, upd, List.foldl, List.filterMap,
    List.isEmpty, Option.isSome, Option.toList, List.append]

theorem min_cycle_ratio_optimal_witness :
    ((minCycleRatio wgRatio1 Prod.fst Prod.snd 2 3 3 (3 : ℚ) (fun _ => 0)).2.2.2 = true) ∧
    ((∀ c, GraphCycle wgRatio1 c →
        (minCycleRatio wgRatio1 Prod.fst Prod.snd 2 3 3 (3 : ℚ) (fun _ => 0)).1 ≤
          calcRatio Prod.fst Prod.snd c) ∧
      GraphCycle wgRatio1
        (minCycleRatio wgRatio1 Prod.fst Prod.snd 2 3 3 (3 : ℚ) (fun _ => 0)).2.1.reverse ∧
      calcRatio Prod.fst Prod.snd
          (minCycleRatio wgRatio1 Prod.fst Prod.snd 2 3 3 (3 : ℚ) (fun _ => 0)).2.1 =
        (minCycleRatio wgRatio1 Prod.fst Prod.snd 2 3 3 (3 : ℚ) (fun _ => 0)).1) :=
  ⟨min_cycle_ratio_flag,
   min_cycle_ratio_optimal wgRatio1 Prod.fst Prod.snd 2 3 3 3 (fun _ => 0)
     min_cycle_ratio_flag
     (fun c hc => graphCycle_time_pos wgRatio1_time_pos hc)
     ⟨[(((2 : ℚ), (1 : ℚ)))], wgRatio1_cycle, by norm_num [calcRatio]⟩⟩

end ClaimC2

end Digraphx

